import Mathlib

/-!
Verification of the `diffrq` directory-diff tool (`src/main.rs`) against its
natural-language specification.

The embedding models:
- file names as byte strings (`Name := List Nat`), compared byte-wise
  lexicographically as Rust's `OsString: Ord` does on Unix;
- the filesystem as a tree `FsNode` whose nodes may carry an open/read error
  (for files) or a listing error (for directories), so that the
  error-handling paths of the program are represented;
- `files_are_identical` as a chunked loop over the two byte lists
  (`filesLoopAux`, which additionally counts the number of chunk reads);
- `compare_directories` as `compareFuel`, producing the list of
  classification events that the Rust code passes to its `report` closure;
- `main` as `parseLoop` / `runMain`, returning the process exit code paired
  with the classifications emitted.

Recursive functions are defined structurally over an explicit fuel argument
so that they evaluate by kernel reduction; the fuel instantiated by the
wrapper definitions is proved sufficient (`filesLoopAux_irrel`,
`mergeWalkF_irrel`, `compareFuel_irrel`), which recovers the natural
recursion equations.
-/

/-- A file or directory name: its byte string. -/
abbrev Name := List Nat

/-- A filesystem path, as the list of its name components. -/
abbrev FPath := List Name

/-- Byte-wise lexicographic comparison of names, as Rust's `Ord` on byte
slices (and hence `OsString` on Unix) computes it. -/
def byteCmp : Name → Name → Ordering
  | [], [] => .eq
  | [], _ :: _ => .lt
  | _ :: _, [] => .gt
  | a :: as, b :: bs =>
    if a < b then .lt
    else if b < a then .gt
    else byteCmp as bs

mutual
/-- A snapshot of one filesystem subtree.  A file carries its byte content and
an optional open/read error; a directory carries its (unordered) child list and
an optional listing error.  An error of `some m` means the corresponding
filesystem operation (`File::open`/`read` resp. `fs::read_dir`) fails with
message `m`. -/
inductive FsNode where
  | file (content : List Nat) (openErr : Option String)
  | dir (entries : Entries) (listErr : Option String)
/-- The raw child list of a directory node. -/
inductive Entries where
  | nil
  | cons (name : Name) (node : FsNode) (rest : Entries)
end

/-- The children of a directory as a list of name/node pairs. -/
def Entries.toList : Entries → List (Name × FsNode)
  | .nil => []
  | .cons n c rest => (n, c) :: rest.toList

mutual
/-- Height of a subtree: 0 for files, one more than the children's maximal
height for directories.  Used to bound the recursion depth of
`compare_directories`. -/
def FsNode.height : FsNode → Nat
  | .file _ _ => 0
  | .dir es _ => es.height + 1
/-- Maximal height of the nodes in a child list. -/
def Entries.height : Entries → Nat
  | .nil => 0
  | .cons _ c rest => max c.height rest.height
end

/-- Whether the node is a directory (Rust: `entry.path().is_dir()`). -/
def FsNode.isDir : FsNode → Bool
  | .file _ _ => false
  | .dir _ _ => true

/-- The metadata byte length of the node (Rust: `metadata.len()`); only ever
consulted for regular files. -/
def FsNode.len : FsNode → Nat
  | .file c _ => c.length
  | .dir _ _ => 0

/-- Rust `EntryInfo`: one listed child of a directory.  `path` is the full
path, `file_name` its last component; `is_dir` and `len` are the metadata
captured by `EntryInfo::from_dir_entry`.  The `node` field is the model's
handle to the underlying subtree (in Rust the path serves this purpose). -/
structure EntryInfo where
  path : FPath
  file_name : Name
  is_dir : Bool
  len : Nat
  node : FsNode

/-- One classification event, i.e. one `report(..)` call in the Rust source:
`D:` / `A:` / `M:` / `-:` lines carry one path, `E:` lines carry the two paths
being compared and the underlying error message. -/
inductive Classification where
  | added (p : FPath)
  | deleted (p : FPath)
  | modified (p : FPath)
  | unchanged (p : FPath)
  | cmpError (p1 p2 : FPath) (msg : String)
deriving DecidableEq

instance {ε α : Type} [DecidableEq ε] [DecidableEq α] : DecidableEq (Except ε α) := fun x y =>
  match x, y with
  | .ok a, .ok b => if h : a = b then .isTrue (by rw [h]) else .isFalse (by simp [h])
  | .error a, .error b => if h : a = b then .isTrue (by rw [h]) else .isFalse (by simp [h])
  | .ok _, .error _ => .isFalse (by simp)
  | .error _, .ok _ => .isFalse (by simp)

/-- The read buffer size of `files_are_identical` (128 KiB). -/
def chunkSize : Nat := 131072

/-- The read/compare loop of `files_are_identical`, on the two files' byte
contents, with fuel.  Each iteration reads one chunk of up to `chunkSize`
bytes from each file and compares them; the second component counts the
iterations (chunk reads) performed. -/
def filesLoopAux : Nat → List Nat → List Nat → Bool × Nat
  | 0, _, _ => (false, 0)
  | fuel + 1, c1, c2 =>
    let b1 := min chunkSize c1.length
    let b2 := min chunkSize c2.length
    if b1 ≠ b2 ∨ c1.take b1 ≠ c2.take b2 then (false, 1)
    else if b1 = 0 then (true, 1)
    else
      let r := filesLoopAux fuel (c1.drop b1) (c2.drop b2)
      (r.1, r.2 + 1)

/-- The boolean result of the `files_are_identical` loop. -/
def filesLoop (c1 c2 : List Nat) : Bool := (filesLoopAux (c1.length + 1) c1 c2).1

/-- The number of chunk reads the `files_are_identical` loop performs. -/
def filesLoopReads (c1 c2 : List Nat) : Nat := (filesLoopAux (c1.length + 1) c1 c2).2

/-- Rust `files_are_identical`: opens both nodes as files (an open/read error
on either side, checked left first, yields the error) and runs the chunked
comparison loop. -/
def filesAreIdentical : FsNode → FsNode → Except String Bool
  | .file _ (some m), _ => .error m
  | .file _ none, .file _ (some m) => .error m
  | .file c1 none, .file c2 none => .ok (filesLoop c1 c2)
  | .dir _ _, _ => .error "is a directory"
  | .file _ none, .dir _ _ => .error "is a directory"

/-- The classification(s) produced by resolving one pending file comparison,
i.e. the `match files_are_identical(..)` block of the Rust source: `M:` on
differing content, `-:` on identical content when in `--all` mode (nothing
otherwise), `E:` with both paths and the cause on an I/O error. -/
def fileResult (am : Bool) (a b : EntryInfo) : List Classification :=
  match filesAreIdentical a.node b.node with
  | .ok false => [.modified b.path]
  | .ok true => if am then [.unchanged b.path] else []
  | .error m => [.cmpError a.path b.path m]

/-- Builds the `EntryInfo` for one directory child (Rust
`EntryInfo::from_dir_entry`). -/
def mkEntry (p : FPath) (x : Name × FsNode) : EntryInfo :=
  { path := p ++ [x.1], file_name := x.1, is_dir := x.2.isDir, len := x.2.len, node := x.2 }

/-- The name order used by `entries.sort_by(|a, b| a.file_name.cmp(&b.file_name))`. -/
def entryLe (a b : EntryInfo) : Prop := byteCmp a.file_name b.file_name ≠ Ordering.gt

instance : DecidableRel entryLe := fun a b =>
  inferInstanceAs (Decidable (byteCmp a.file_name b.file_name ≠ Ordering.gt))

/-- Rust `read_entries` followed by the `sort_by` call: lists a directory
(failing with its listing error, or when the node is not a directory), skips
names in the exclude set, and sorts the entries by name. -/
def listNode (ex : List Name) (p : FPath) : FsNode → Except String (List EntryInfo)
  | .file _ _ => .error "not a directory"
  | .dir _ (some m) => .error m
  | .dir es none =>
    .ok (List.insertionSort entryLe ((es.toList.filter (fun x => ¬ ex.contains x.1)).map (mkEntry p)))

/-- The result of the two-cursor merge pass of `compare_directories`:
`outs` are the classifications reported during the pass (in report order),
`files` the pending file-comparison pairs (`files_to_compare`), `dirs` the
pending subdirectory pairs (`dirs_to_compare`), and `invoked` the pairs on
which `files_are_identical` is invoked inline during the pass (which happens
only in `--all` mode). -/
structure MergeOut where
  outs : List Classification
  files : List (EntryInfo × EntryInfo)
  dirs : List (EntryInfo × EntryInfo)
  invoked : List (EntryInfo × EntryInfo)

/-- The two-cursor merge loop of `compare_directories` (the `while` loop over
the two sorted entry iterators), with fuel.  `cmp` is the inline resolution
used for equal-sized file pairs in `--all` mode; `compare_directories`
instantiates it with `fileResult am`. -/
def mergeWalkF (cmp : EntryInfo → EntryInfo → List Classification) (am : Bool) :
    Nat → List EntryInfo → List EntryInfo → MergeOut
  | 0, _, _ => ⟨[], [], [], []⟩
  | fuel + 1, l1, l2 =>
    match l1, l2 with
    | [], [] => ⟨[], [], [], []⟩
    | a :: as, [] =>
      let r := mergeWalkF cmp am fuel as []
      ⟨.deleted a.path :: r.outs, r.files, r.dirs, r.invoked⟩
    | [], b :: bs =>
      let r := mergeWalkF cmp am fuel [] bs
      ⟨.added b.path :: r.outs, r.files, r.dirs, r.invoked⟩
    | a :: as, b :: bs =>
      match byteCmp a.file_name b.file_name with
      | .lt =>
        let r := mergeWalkF cmp am fuel as (b :: bs)
        ⟨.deleted a.path :: r.outs, r.files, r.dirs, r.invoked⟩
      | .gt =>
        let r := mergeWalkF cmp am fuel (a :: as) bs
        ⟨.added b.path :: r.outs, r.files, r.dirs, r.invoked⟩
      | .eq =>
        let r := mergeWalkF cmp am fuel as bs
        if a.is_dir ≠ b.is_dir then
          ⟨.deleted a.path :: .added b.path :: r.outs, r.files, r.dirs, r.invoked⟩
        else if a.is_dir then
          ⟨r.outs, r.files, (a, b) :: r.dirs, r.invoked⟩
        else if a.len ≠ b.len then
          ⟨.modified b.path :: r.outs, r.files, r.dirs, r.invoked⟩
        else if 0 < a.len then
          if am then ⟨cmp a b ++ r.outs, r.files, r.dirs, (a, b) :: r.invoked⟩
          else ⟨r.outs, (a, b) :: r.files, r.dirs, r.invoked⟩
        else r

/-- The two-cursor merge loop of `compare_directories`, fuel instantiated. -/
def mergeWalk (cmp : EntryInfo → EntryInfo → List Classification) (am : Bool)
    (l1 l2 : List EntryInfo) : MergeOut :=
  mergeWalkF cmp am (l1.length + l2.length + 1) l1 l2

/-- Rust `compare_directories`, with an explicit fuel bounding the recursion
depth (`compareDirectories` below instantiates the fuel sufficiently).  Lists
both sides (propagating a listing failure as `Err`), runs the merge pass,
resolves the pending file comparisons, then recurses into each pending
subdirectory pair, converting a failed recursive call into an `E:`
classification carrying both directory paths and the cause. -/
def compareFuel (ex : List Name) (am : Bool) :
    Nat → FPath → FPath → FsNode → FsNode → Except String (List Classification)
  | 0, _, _, _, _ => .error "out of fuel"
  | fuel + 1, p1, p2, n1, n2 =>
    match listNode ex p1 n1 with
    | .error m => .error m
    | .ok l1 =>
      match listNode ex p2 n2 with
      | .error m => .error m
      | .ok l2 =>
        let r := mergeWalk (fileResult am) am l1 l2
        .ok (r.outs
          ++ r.files.flatMap (fun fp => fileResult am fp.1 fp.2)
          ++ r.dirs.flatMap (fun dp =>
              match compareFuel ex am fuel dp.1.path dp.2.path dp.1.node dp.2.node with
              | .ok cs => cs
              | .error m => [.cmpError dp.1.path dp.2.path m]))

/-- Rust `compare_directories`: the fuel-free entry point. -/
def compareDirectories (ex : List Name) (am : Bool) (p1 p2 : FPath) (n1 n2 : FsNode) :
    Except String (List Classification) :=
  compareFuel ex am (n1.height + 1) p1 p2 n1 n2

/-- The contribution of one pending subdirectory pair to the parent's output:
the child's own output, or, when the recursive call fails, the single `E:`
classification the parent reports for it. -/
def childOut (ex : List Name) (am : Bool) (dp : EntryInfo × EntryInfo) : List Classification :=
  match compareDirectories ex am dp.1.path dp.2.path dp.1.node dp.2.node with
  | .ok cs => cs
  | .error m => [.cmpError dp.1.path dp.2.path m]

/-- Rust `arg.starts_with('-')`: whether the first character is a dash. -/
def startsWithDash (s : String) : Bool :=
  match s.data with
  | c :: _ => c = '-'
  | [] => false

/-- The argument-parsing loop of `main`, over the remaining argument list and
the accumulated state `(all_mode, noformat_mode, dir1, dir2, excludes)`. -/
def parseLoop : List String → Bool → Bool → Option String → Option String → List String →
    Except String (Bool × Bool × Option String × Option String × List String)
  | [], am, nf, d1, d2, ex => .ok (am, nf, d1, d2, ex)
  | arg :: rest, am, nf, d1, d2, ex =>
    if arg = "--all" then parseLoop rest true nf d1 d2 ex
    else if arg = "--noformat" then parseLoop rest am true d1 d2 ex
    else if arg = "--exclude" then
      match rest with
      | v :: rest2 => parseLoop rest2 am nf d1 d2 (ex ++ [v])
      | [] => .error "Missing value after --exclude"
    else if ¬ startsWithDash arg then
      match d1 with
      | none => parseLoop rest am nf (some arg) d2 ex
      | some _ =>
        match d2 with
        | none => parseLoop rest am nf d1 (some arg) ex
        | some _ => .error "Too many positional arguments"
    else .error ("Unknown flag: " ++ arg)

/-- The byte string of a command-line argument, as a `Name`. -/
def strToName (s : String) : Name := s.data.map Char.toNat

/-- The paths a classification event references. -/
def Classification.pathsOf : Classification → List FPath
  | .added p => [p]
  | .deleted p => [p]
  | .modified p => [p]
  | .unchanged p => [p]
  | .cmpError p1 p2 _ => [p1, p2]

/-- The last component of a path (the name of the entry it denotes). -/
def pathName (p : FPath) : Name := p.getLastD []

/-- The name a classification event is about (the last component of its
reported path; for an `E:` event the two paths end in the same name). -/
def Classification.nameOf : Classification → Name
  | .added p => pathName p
  | .deleted p => pathName p
  | .modified p => pathName p
  | .unchanged p => pathName p
  | .cmpError _ p2 _ => pathName p2

/-- Looks up the entry with the given name in a listing. -/
def findName (l : List EntryInfo) (n : Name) : Option EntryInfo :=
  l.find? (fun e => e.file_name == n)

/-- Left entries the merge pass classifies `Deleted`: name absent from the
right listing, or present there with a differing is-directory flag. -/
def delPred (l2 : List EntryInfo) (a : EntryInfo) : Bool :=
  match findName l2 a.file_name with
  | none => true
  | some b => a.is_dir != b.is_dir

/-- Right entries the merge pass classifies `Added`: name absent from the
left listing, or present there with a differing is-directory flag. -/
def addPred (l1 : List EntryInfo) (b : EntryInfo) : Bool :=
  match findName l1 b.file_name with
  | none => true
  | some a => a.is_dir != b.is_dir

/-- The paths of the `Deleted` events in a classification stream, in order. -/
def deletedPaths (cs : List Classification) : List FPath :=
  cs.filterMap (fun c => match c with | .deleted p => some p | _ => none)

/-- The paths of the `Added` events in a classification stream, in order. -/
def addedPaths (cs : List Classification) : List FPath :=
  cs.filterMap (fun c => match c with | .added p => some p | _ => none)

/-- The `i`-th `chunkSize`-byte chunk of a file's content. -/
def chunkAt (c : List Nat) (i : Nat) : List Nat := (c.drop (chunkSize * i)).take chunkSize

/-- Strict name order on entries (used to state that a listing is sorted with
pairwise distinct names). -/
def entryLt (a b : EntryInfo) : Prop := byteCmp a.file_name b.file_name = Ordering.lt

instance : DecidableRel entryLt := fun a b =>
  inferInstanceAs (Decidable (byteCmp a.file_name b.file_name = Ordering.lt))

/-- Non-strict byte-wise order on names. -/
def nameLe (m n : Name) : Prop := byteCmp m n ≠ Ordering.gt

instance : DecidableRel nameLe := fun m n =>
  inferInstanceAs (Decidable (byteCmp m n ≠ Ordering.gt))

/-- The pairs of same-named entries of the two listings, in left order. -/
def matchedPairs (l1 l2 : List EntryInfo) : List (EntryInfo × EntryInfo) :=
  l1.filterMap (fun a => (findName l2 a.file_name).map (fun b => (a, b)))

/-- The same-named pairs that are directories on both sides (those the merge
pass queues for recursion). -/
def dirPairs (l1 l2 : List EntryInfo) : List (EntryInfo × EntryInfo) :=
  (matchedPairs l1 l2).filter (fun ab => ab.1.is_dir && ab.2.is_dir)

/-- The same-named pairs that are regular files of equal positive length on
both sides (those whose content the code compares). -/
def filePairs (l1 l2 : List EntryInfo) : List (EntryInfo × EntryInfo) :=
  (matchedPairs l1 l2).filter
    (fun ab => !ab.1.is_dir && !ab.2.is_dir && ab.1.len == ab.2.len && decide (0 < ab.1.len))

/-- The classifications the merge pass itself emits for one matched name pair:
`D:`+`A:` on a type mismatch, nothing for a directory pair (queued instead),
`M:` on a size mismatch, the inline comparison result for an equal-sized
positive-length file pair in `--all` mode (queued otherwise), and nothing for
a pair of empty files. -/
def pairOut (am : Bool) (a b : EntryInfo) : List Classification :=
  if a.is_dir ≠ b.is_dir then [.deleted a.path, .added b.path]
  else if a.is_dir then []
  else if a.len ≠ b.len then [.modified b.path]
  else if 0 < a.len then (if am then fileResult am a b else [])
  else []

/-- How many classification events a directory level emits for a given name,
as the code computes it: 2 for a type mismatch (one `D:` and one `A:`), 0 for
a matched directory pair (it only queues a recursion), 1 for a size mismatch,
0 for a matched pair of empty files, the file-comparison result otherwise; 1
for a one-sided name; 0 for an absent name. -/
def expectedCount (am : Bool) (l1 l2 : List EntryInfo) (n : Name) : Nat :=
  match findName l1 n, findName l2 n with
  | some a, some b =>
    if a.is_dir != b.is_dir then 2
    else if a.is_dir then 0
    else if a.len ≠ b.len then 1
    else if a.len = 0 then 0
    else (fileResult am a b).length
  | some _, none => 1
  | none, some _ => 1
  | none, none => 0

/-- The classifications one directory level emits itself (merge pass plus
resolution of the pending file comparisons), excluding subdirectory output. -/
def levelOut (am : Bool) (l1 l2 : List EntryInfo) : List Classification :=
  (mergeWalk (fileResult am) am l1 l2).outs
    ++ (mergeWalk (fileResult am) am l1 l2).files.flatMap (fun fp => fileResult am fp.1 fp.2)

/-- Rust `main`, modelled over a root-path resolver `lookup` and the argument
list: parses the arguments, requires both positional paths to resolve to
directories, then runs `compare_directories`.  Returns the process exit code
(0 on success; 1 when `main` returns an `anyhow` error, i.e. on
argument/startup errors or a top-level listing failure) paired with the
classification events reported. -/
def runMain (lookup : String → Option FsNode) (args : List String) :
    Nat × List Classification :=
  match parseLoop args false false none none [] with
  | .error _ => (1, [])
  | .ok (am, _, d1o, d2o, ex) =>
    match d1o, d2o with
    | some d1, some d2 =>
      match lookup d1, lookup d2 with
      | some n1, some n2 =>
        if n1.isDir && n2.isDir then
          match compareDirectories (ex.map strToName) am [strToName d1] [strToName d2] n1 n2 with
          | .ok cs => (0, cs)
          | .error _ => (1, [])
        else (1, [])
      | _, _ => (1, [])
    | _, _ => (1, [])

/-! ### Order theory for byte-wise name comparison -/

theorem byteCmp_self (a : Name) : byteCmp a a = .eq := by
  induction a with
  | nil => rfl
  | cons x xs ih => simp [byteCmp, ih]

theorem byteCmp_eq_iff : ∀ a b : Name, byteCmp a b = .eq ↔ a = b := by
  intro a
  induction a with
  | nil => intro b; cases b <;> simp [byteCmp]
  | cons x xs ih =>
    intro b
    cases b with
    | nil => simp [byteCmp]
    | cons y ys =>
      simp only [byteCmp]
      split_ifs with h1 h2
      · constructor
        · intro h; simp at h
        · intro h; injection h with h h2; omega
      · constructor
        · intro h; simp at h
        · intro h; injection h with h h2; omega
      · have hxy : x = y := by omega
        subst hxy
        simp [ih]

theorem byteCmp_swap : ∀ a b : Name, byteCmp b a = (byteCmp a b).swap := by
  intro a
  induction a with
  | nil => intro b; cases b <;> rfl
  | cons x xs ih =>
    intro b
    cases b with
    | nil => rfl
    | cons y ys =>
      simp only [byteCmp]
      rcases Nat.lt_trichotomy x y with h | h | h
      · rw [if_neg (by omega), if_pos h, if_pos h]
        rfl
      · subst h
        rw [if_neg (by omega), if_neg (by omega), if_neg (by omega), if_neg (by omega)]
        exact ih ys
      · rw [if_pos h, if_neg (by omega), if_pos h]
        rfl

theorem byteCmp_lt_trans : ∀ {a b c : Name},
    byteCmp a b = .lt → byteCmp b c = .lt → byteCmp a c = .lt := by
  intro a
  induction a with
  | nil =>
    intro b c hab hbc
    cases c with
    | cons z zs => rfl
    | nil =>
      cases b with
      | nil => exact hbc
      | cons y ys => simp [byteCmp] at hbc
  | cons x xs ih =>
    intro b c hab hbc
    cases b with
    | nil => simp [byteCmp] at hab
    | cons y ys =>
      cases c with
      | nil => simp [byteCmp] at hbc
      | cons z zs =>
        simp only [byteCmp] at hab hbc ⊢
        rcases Nat.lt_trichotomy x y with hxy | hxy | hxy
        · rcases Nat.lt_trichotomy y z with hyz | hyz | hyz
          · rw [if_pos (by omega)]
          · subst hyz
            rw [if_pos hxy]
          · rw [if_neg (by omega), if_pos hyz] at hbc
            simp at hbc
        · subst hxy
          rcases Nat.lt_trichotomy x z with hxz | hxz | hxz
          · rw [if_pos hxz]
          · subst hxz
            rw [if_neg (by omega), if_neg (by omega)] at hab hbc ⊢
            exact ih hab hbc
          · rw [if_neg (by omega), if_pos hxz] at hbc
            simp at hbc
        · rw [if_neg (by omega), if_pos hxy] at hab
          simp at hab

theorem byteCmp_cases (a b : Name) :
    byteCmp a b = .lt ∨ byteCmp a b = .eq ∨ byteCmp a b = .gt := by
  cases h : byteCmp a b
  · exact .inl rfl
  · exact .inr (.inl rfl)
  · exact .inr (.inr rfl)

theorem byteCmp_gt_iff_lt (a b : Name) : byteCmp a b = .gt ↔ byteCmp b a = .lt := by
  rw [byteCmp_swap a b]
  rcases byteCmp_cases a b with h | h | h <;> rw [h] <;> decide


/-- `entryLe` is total: of any two entries, one is `≤` the other. -/
instance : IsTotal EntryInfo entryLe := by
  constructor
  intro a b
  unfold entryLe
  rcases byteCmp_cases a.file_name b.file_name with h | h | h
  · left; simp [h]
  · left; simp [h]
  · right
    rw [byteCmp_gt_iff_lt] at h
    simp [h]

/-- `entryLe` is transitive. -/
instance : IsTrans EntryInfo entryLe := by
  constructor
  intro a b c hab hbc
  unfold entryLe at *
  rcases byteCmp_cases a.file_name b.file_name with h1 | h1 | h1
  · rcases byteCmp_cases b.file_name c.file_name with h2 | h2 | h2
    · simp [byteCmp_lt_trans h1 h2]
    · rw [byteCmp_eq_iff] at h2
      simp [← h2, h1]
    · exact absurd h2 hbc
  · rw [byteCmp_eq_iff] at h1
    rw [h1]
    exact hbc
  · exact absurd h1 hab

/-! ### The chunked file-comparison loop -/

theorem chunkSize_pos : 0 < chunkSize := by decide

theorem filesLoopAux_irrel : ∀ f f' : Nat, ∀ c1 c2 : List Nat,
    c1.length < f → c1.length < f' → filesLoopAux f c1 c2 = filesLoopAux f' c1 c2 := by
  intro f
  induction f with
  | zero => intro f' c1 c2 h; omega
  | succ fh ih =>
    intro f' c1 c2 h h'
    cases f' with
    | zero => omega
    | succ fh' =>
      simp only [filesLoopAux]
      split_ifs with hcond hzero
      · rfl
      · rfl
      · have hb : 0 < min chunkSize c1.length := by
          rcases Nat.eq_zero_or_pos (min chunkSize c1.length) with h0 | h0
          · exact absurd h0 hzero
          · exact h0
        have hlt : (c1.drop (min chunkSize c1.length)).length < fh := by
          simp only [List.length_drop]
          omega
        have hlt' : (c1.drop (min chunkSize c1.length)).length < fh' := by
          simp only [List.length_drop]
          omega
        rw [ih fh' _ _ hlt hlt']

theorem filesLoopAux_true_iff : ∀ f : Nat, ∀ c1 c2 : List Nat,
    c1.length < f → c1.length = c2.length →
    ((filesLoopAux f c1 c2).1 = true ↔ c1 = c2) := by
  intro f
  induction f with
  | zero => intro c1 c2 h; omega
  | succ fh ih =>
    intro c1 c2 hf hlen
    simp only [filesLoopAux, ← hlen]
    split_ifs with hcond hzero
    · rcases hcond with hne | hne
      · exact absurd rfl hne
      · constructor
        · intro h; simp at h
        · intro h; subst h; exact absurd rfl hne
    · push_neg at hcond
      have h1 : c1.length = 0 := by
        have := chunkSize_pos
        omega
      have h2 : c2.length = 0 := by omega
      rw [List.length_eq_zero] at h1 h2
      simp [h1, h2]
    · push_neg at hcond
      have hb : 0 < min chunkSize c1.length := by
        rcases Nat.eq_zero_or_pos (min chunkSize c1.length) with h0 | h0
        · exact absurd h0 hzero
        · exact h0
      have hlt : (c1.drop (min chunkSize c1.length)).length < fh := by
        simp only [List.length_drop]
        omega
      have hdlen : (c1.drop (min chunkSize c1.length)).length
          = (c2.drop (min chunkSize c1.length)).length := by
        simp only [List.length_drop]
        omega
      rw [ih _ _ hlt hdlen]
      constructor
      · intro hdrop
        have := hcond.2
        calc c1 = c1.take (min chunkSize c1.length) ++ c1.drop (min chunkSize c1.length) := by
              rw [List.take_append_drop]
          _ = c2.take (min chunkSize c1.length) ++ c2.drop (min chunkSize c1.length) := by
              rw [hcond.2, hdrop]
          _ = c2 := by rw [List.take_append_drop]
      · intro h; rw [h]

theorem take_min_chunk (c : List Nat) : c.take (min chunkSize c.length) = c.take chunkSize := by
  rcases le_total chunkSize c.length with h | h
  · rw [min_eq_left h]
  · rw [min_eq_right h, List.take_length, List.take_of_length_le h]

theorem chunkAt_zero (c : List Nat) : chunkAt c 0 = c.take chunkSize := by
  simp [chunkAt]

theorem chunkAt_drop (c : List Nat) (j : Nat) :
    chunkAt (c.drop chunkSize) j = chunkAt c (j + 1) := by
  unfold chunkAt
  rw [List.drop_drop, Nat.mul_succ]
  ring_nf

theorem filesLoopAux_reads : ∀ i f : Nat, ∀ c1 c2 : List Nat,
    c1.length < f → c1.length = c2.length →
    (∀ j, j < i → chunkAt c1 j = chunkAt c2 j) → chunkAt c1 i ≠ chunkAt c2 i →
    (filesLoopAux f c1 c2).2 = i + 1 := by
  intro i
  induction i with
  | zero =>
    intro f c1 c2 hf hlen hpre hmis
    cases f with
    | zero => omega
    | succ fh =>
      simp only [filesLoopAux, ← hlen]
      rw [chunkAt_zero, chunkAt_zero] at hmis
      rw [if_pos]
      right
      rw [take_min_chunk]
      have h2 : c2.take (min chunkSize c1.length) = c2.take chunkSize := by
        rw [hlen, take_min_chunk]
      rw [h2]
      exact hmis
  | succ i ih =>
    intro f c1 c2 hf hlen hpre hmis
    cases f with
    | zero => omega
    | succ fh =>
      have hch0 : c1.take chunkSize = c2.take chunkSize := by
        have := hpre 0 (by omega)
        rwa [chunkAt_zero, chunkAt_zero] at this
      simp only [filesLoopAux, ← hlen]
      rw [if_neg]
      · rcases le_or_lt c1.length chunkSize with hsm | hbig
        · exfalso
          have hc1 : c1.take chunkSize = c1 := List.take_of_length_le hsm
          have hc2 : c2.take chunkSize = c2 := List.take_of_length_le (by omega)
          have : c1 = c2 := by rw [← hc1, ← hc2, hch0]
          subst this
          exact hmis rfl
        · have hb : min chunkSize c1.length = chunkSize := min_eq_left (by omega)
          rw [if_neg (by rw [hb]; have := chunkSize_pos; omega)]
          simp only [hb]
          have hrec := ih fh (c1.drop chunkSize) (c2.drop chunkSize)
            (by simp only [List.length_drop]; have := chunkSize_pos; omega)
            (by simp only [List.length_drop]; omega)
            (fun j hj => by rw [chunkAt_drop, chunkAt_drop]; exact hpre (j + 1) (by omega))
            (by rw [chunkAt_drop, chunkAt_drop]; exact hmis)
          rw [hrec]
      · push_neg
        constructor
        · rfl
        · rw [take_min_chunk]
          have h2 : c2.take (min chunkSize c1.length) = c2.take chunkSize := by
            rw [hlen, take_min_chunk]
          rw [h2]
          exact hch0

/-- **C2**: for two regular files of equal positive length, the streaming
content comparison returns `true` (`Unchanged`) exactly when the byte contents
are identical, returns `false` (`Modified`) exactly when they differ, and when
chunk `i` is the first differing chunk the loop performs exactly `i + 1` chunk
reads, i.e. it never reads past the first differing chunk. -/
theorem c2_streaming_compare (c1 c2 : List Nat)
    (hlen : c1.length = c2.length) (hpos : 0 < c1.length) :
    (filesAreIdentical (.file c1 none) (.file c2 none) = .ok true ↔ c1 = c2) ∧
    (filesAreIdentical (.file c1 none) (.file c2 none) = .ok false ↔ c1 ≠ c2) ∧
    (∀ i, (∀ j, j < i → chunkAt c1 j = chunkAt c2 j) → chunkAt c1 i ≠ chunkAt c2 i →
      filesLoopReads c1 c2 = i + 1) := by
  have hkey := filesLoopAux_true_iff (c1.length + 1) c1 c2 (by omega) hlen
  have h1 : filesAreIdentical (.file c1 none) (.file c2 none) = .ok (filesLoop c1 c2) := rfl
  rw [h1]
  unfold filesLoop at *
  refine ⟨?_, ?_, ?_⟩
  · simp only [Except.ok.injEq]
    exact hkey
  · simp only [Except.ok.injEq, Bool.eq_false_iff]
    exact not_congr hkey
  · intro i hpre hmis
    exact filesLoopAux_reads i (c1.length + 1) c1 c2 (by omega) hlen hpre hmis

theorem c2_streaming_compare_witness :
    ([1, 2] : List Nat).length = ([1, 3] : List Nat).length ∧
    0 < ([1, 2] : List Nat).length ∧
    ((filesAreIdentical (.file [1, 2] none) (.file [1, 3] none) = .ok true ↔
        ([1, 2] : List Nat) = [1, 3]) ∧
      (filesAreIdentical (.file [1, 2] none) (.file [1, 3] none) = .ok false ↔
        ([1, 2] : List Nat) ≠ [1, 3]) ∧
      (∀ i, (∀ j, j < i → chunkAt [1, 2] j = chunkAt [1, 3] j) →
        chunkAt [1, 2] i ≠ chunkAt [1, 3] i → filesLoopReads [1, 2] [1, 3] = i + 1)) :=
  ⟨by decide, by decide, c2_streaming_compare [1, 2] [1, 3] (by decide) (by decide)⟩

/-! ### Recursion equations for the merge pass -/

theorem mergeWalkF_irrel : ∀ f f' : Nat,
    ∀ (cmp : EntryInfo → EntryInfo → List Classification) (am : Bool) (l1 l2 : List EntryInfo),
    l1.length + l2.length < f → l1.length + l2.length < f' →
    mergeWalkF cmp am f l1 l2 = mergeWalkF cmp am f' l1 l2 := by
  intro f
  induction f with
  | zero => intro f' cmp am l1 l2 h; omega
  | succ fh ih =>
    intro f' cmp am l1 l2 h h'
    cases f' with
    | zero => omega
    | succ fh' =>
      cases l1 with
      | nil =>
        cases l2 with
        | nil => rfl
        | cons b bs =>
          simp only [mergeWalkF]
          rw [ih fh' cmp am [] bs (by simp at h ⊢; omega) (by simp at h' ⊢; omega)]
      | cons a as =>
        cases l2 with
        | nil =>
          simp only [mergeWalkF]
          rw [ih fh' cmp am as [] (by simp at h ⊢; omega) (by simp at h' ⊢; omega)]
        | cons b bs =>
          simp only [mergeWalkF]
          rcases byteCmp_cases a.file_name b.file_name with hc | hc | hc <;> simp only [hc]
          · rw [ih fh' cmp am as (b :: bs) (by simp at h ⊢; omega) (by simp at h' ⊢; omega)]
          · rw [ih fh' cmp am as bs (by simp at h ⊢; omega) (by simp at h' ⊢; omega)]
          · rw [ih fh' cmp am (a :: as) bs (by simp at h ⊢; omega) (by simp at h' ⊢; omega)]

theorem mergeWalkF_eq {f : Nat}
    {cmp : EntryInfo → EntryInfo → List Classification} {am : Bool} {l1 l2 : List EntryInfo}
    (h : l1.length + l2.length < f) :
    mergeWalkF cmp am f l1 l2 = mergeWalk cmp am l1 l2 :=
  mergeWalkF_irrel f (l1.length + l2.length + 1) cmp am l1 l2 h (by omega)

theorem mergeWalkF_zero (cmp : EntryInfo → EntryInfo → List Classification) (am : Bool)
    (l1 l2 : List EntryInfo) : mergeWalkF cmp am 0 l1 l2 = ⟨[], [], [], []⟩ := rfl

theorem mergeWalkF_succ_nil_nil (cmp : EntryInfo → EntryInfo → List Classification) (am : Bool)
    (f : Nat) : mergeWalkF cmp am (f + 1) [] [] = ⟨[], [], [], []⟩ := rfl

theorem mergeWalkF_succ_cons_nil (cmp : EntryInfo → EntryInfo → List Classification) (am : Bool)
    (f : Nat) (a : EntryInfo) (as : List EntryInfo) :
    mergeWalkF cmp am (f + 1) (a :: as) [] =
      ⟨.deleted a.path :: (mergeWalkF cmp am f as []).outs, (mergeWalkF cmp am f as []).files,
        (mergeWalkF cmp am f as []).dirs, (mergeWalkF cmp am f as []).invoked⟩ := rfl

theorem mergeWalkF_succ_nil_cons (cmp : EntryInfo → EntryInfo → List Classification) (am : Bool)
    (f : Nat) (b : EntryInfo) (bs : List EntryInfo) :
    mergeWalkF cmp am (f + 1) [] (b :: bs) =
      ⟨.added b.path :: (mergeWalkF cmp am f [] bs).outs, (mergeWalkF cmp am f [] bs).files,
        (mergeWalkF cmp am f [] bs).dirs, (mergeWalkF cmp am f [] bs).invoked⟩ := rfl

theorem mergeWalkF_succ_cons_cons (cmp : EntryInfo → EntryInfo → List Classification) (am : Bool)
    (f : Nat) (a b : EntryInfo) (as bs : List EntryInfo) :
    mergeWalkF cmp am (f + 1) (a :: as) (b :: bs) =
      (match byteCmp a.file_name b.file_name with
      | .lt =>
        ⟨.deleted a.path :: (mergeWalkF cmp am f as (b :: bs)).outs,
          (mergeWalkF cmp am f as (b :: bs)).files, (mergeWalkF cmp am f as (b :: bs)).dirs,
          (mergeWalkF cmp am f as (b :: bs)).invoked⟩
      | .gt =>
        ⟨.added b.path :: (mergeWalkF cmp am f (a :: as) bs).outs,
          (mergeWalkF cmp am f (a :: as) bs).files, (mergeWalkF cmp am f (a :: as) bs).dirs,
          (mergeWalkF cmp am f (a :: as) bs).invoked⟩
      | .eq =>
        if a.is_dir ≠ b.is_dir then
          ⟨.deleted a.path :: .added b.path :: (mergeWalkF cmp am f as bs).outs,
            (mergeWalkF cmp am f as bs).files, (mergeWalkF cmp am f as bs).dirs,
            (mergeWalkF cmp am f as bs).invoked⟩
        else if a.is_dir then
          ⟨(mergeWalkF cmp am f as bs).outs, (mergeWalkF cmp am f as bs).files,
            (a, b) :: (mergeWalkF cmp am f as bs).dirs, (mergeWalkF cmp am f as bs).invoked⟩
        else if a.len ≠ b.len then
          ⟨.modified b.path :: (mergeWalkF cmp am f as bs).outs, (mergeWalkF cmp am f as bs).files,
            (mergeWalkF cmp am f as bs).dirs, (mergeWalkF cmp am f as bs).invoked⟩
        else if 0 < a.len then
          if am then
            ⟨cmp a b ++ (mergeWalkF cmp am f as bs).outs, (mergeWalkF cmp am f as bs).files,
              (mergeWalkF cmp am f as bs).dirs, (a, b) :: (mergeWalkF cmp am f as bs).invoked⟩
          else
            ⟨(mergeWalkF cmp am f as bs).outs, (a, b) :: (mergeWalkF cmp am f as bs).files,
              (mergeWalkF cmp am f as bs).dirs, (mergeWalkF cmp am f as bs).invoked⟩
        else mergeWalkF cmp am f as bs) := rfl

theorem mergeWalk_nil_nil (cmp : EntryInfo → EntryInfo → List Classification) (am : Bool) :
    mergeWalk cmp am [] [] = ⟨[], [], [], []⟩ := rfl

theorem mergeWalk_cons_nil (cmp : EntryInfo → EntryInfo → List Classification) (am : Bool)
    (a : EntryInfo) (as : List EntryInfo) :
    mergeWalk cmp am (a :: as) [] =
      ⟨.deleted a.path :: (mergeWalk cmp am as []).outs, (mergeWalk cmp am as []).files,
        (mergeWalk cmp am as []).dirs, (mergeWalk cmp am as []).invoked⟩ := by
  unfold mergeWalk
  rw [mergeWalkF_succ_cons_nil]
  rw [mergeWalkF_eq (by simp only [List.length_cons, List.length_nil]; omega)]
  rfl

theorem mergeWalk_nil_cons (cmp : EntryInfo → EntryInfo → List Classification) (am : Bool)
    (b : EntryInfo) (bs : List EntryInfo) :
    mergeWalk cmp am [] (b :: bs) =
      ⟨.added b.path :: (mergeWalk cmp am [] bs).outs, (mergeWalk cmp am [] bs).files,
        (mergeWalk cmp am [] bs).dirs, (mergeWalk cmp am [] bs).invoked⟩ := by
  unfold mergeWalk
  rw [mergeWalkF_succ_nil_cons]
  rw [mergeWalkF_eq (by simp only [List.length_cons, List.length_nil]; omega)]
  rfl

theorem mergeWalk_lt (cmp : EntryInfo → EntryInfo → List Classification) (am : Bool)
    (a b : EntryInfo) (as bs : List EntryInfo)
    (hc : byteCmp a.file_name b.file_name = .lt) :
    mergeWalk cmp am (a :: as) (b :: bs) =
      ⟨.deleted a.path :: (mergeWalk cmp am as (b :: bs)).outs,
        (mergeWalk cmp am as (b :: bs)).files,
        (mergeWalk cmp am as (b :: bs)).dirs,
        (mergeWalk cmp am as (b :: bs)).invoked⟩ := by
  unfold mergeWalk
  rw [mergeWalkF_succ_cons_cons, hc]
  dsimp only
  rw [show mergeWalkF cmp am ((a :: as).length + (b :: bs).length) as (b :: bs)
      = mergeWalk cmp am as (b :: bs) from
    mergeWalkF_eq (by simp only [List.length_cons]; omega)]
  rfl

theorem mergeWalk_gt (cmp : EntryInfo → EntryInfo → List Classification) (am : Bool)
    (a b : EntryInfo) (as bs : List EntryInfo)
    (hc : byteCmp a.file_name b.file_name = .gt) :
    mergeWalk cmp am (a :: as) (b :: bs) =
      ⟨.added b.path :: (mergeWalk cmp am (a :: as) bs).outs,
        (mergeWalk cmp am (a :: as) bs).files,
        (mergeWalk cmp am (a :: as) bs).dirs,
        (mergeWalk cmp am (a :: as) bs).invoked⟩ := by
  unfold mergeWalk
  rw [mergeWalkF_succ_cons_cons, hc]
  dsimp only
  rw [show mergeWalkF cmp am ((a :: as).length + (b :: bs).length) (a :: as) bs
      = mergeWalk cmp am (a :: as) bs from
    mergeWalkF_eq (by simp only [List.length_cons]; omega)]
  rfl

theorem mergeWalk_eq_name (cmp : EntryInfo → EntryInfo → List Classification) (am : Bool)
    (a b : EntryInfo) (as bs : List EntryInfo)
    (hc : byteCmp a.file_name b.file_name = .eq) :
    mergeWalk cmp am (a :: as) (b :: bs) =
      (if a.is_dir ≠ b.is_dir then
        ⟨.deleted a.path :: .added b.path :: (mergeWalk cmp am as bs).outs,
          (mergeWalk cmp am as bs).files, (mergeWalk cmp am as bs).dirs,
          (mergeWalk cmp am as bs).invoked⟩
      else if a.is_dir then
        ⟨(mergeWalk cmp am as bs).outs, (mergeWalk cmp am as bs).files,
          (a, b) :: (mergeWalk cmp am as bs).dirs, (mergeWalk cmp am as bs).invoked⟩
      else if a.len ≠ b.len then
        ⟨.modified b.path :: (mergeWalk cmp am as bs).outs, (mergeWalk cmp am as bs).files,
          (mergeWalk cmp am as bs).dirs, (mergeWalk cmp am as bs).invoked⟩
      else if 0 < a.len then
        if am then
          ⟨cmp a b ++ (mergeWalk cmp am as bs).outs, (mergeWalk cmp am as bs).files,
            (mergeWalk cmp am as bs).dirs, (a, b) :: (mergeWalk cmp am as bs).invoked⟩
        else
          ⟨(mergeWalk cmp am as bs).outs, (a, b) :: (mergeWalk cmp am as bs).files,
            (mergeWalk cmp am as bs).dirs, (mergeWalk cmp am as bs).invoked⟩
      else mergeWalk cmp am as bs) := by
  unfold mergeWalk
  rw [mergeWalkF_succ_cons_cons, hc]
  dsimp only
  rw [show mergeWalkF cmp am ((a :: as).length + (b :: bs).length) as bs
      = mergeWalk cmp am as bs from
    mergeWalkF_eq (by simp only [List.length_cons]; omega)]
  rfl

/-! ### Recursion equations for `compare_directories` -/

theorem Entries.height_mem : ∀ (es : Entries) (x : Name × FsNode),
    x ∈ es.toList → x.2.height ≤ es.height
  | .nil, x, hx => by simp [Entries.toList] at hx
  | .cons n c rest, x, hx => by
    simp only [Entries.toList, List.mem_cons] at hx
    rcases hx with rfl | hx
    · simp [Entries.height]
    · have := Entries.height_mem rest x hx
      simp only [Entries.height]
      omega

theorem listNode_mem {ex : List Name} {p : FPath} {n : FsNode} {l : List EntryInfo}
    (h : listNode ex p n = .ok l) {e : EntryInfo} (he : e ∈ l) :
    ∃ es err, n = FsNode.dir es err ∧ (e.file_name, e.node) ∈ es.toList ∧
      e.path = p ++ [e.file_name] ∧ e.is_dir = e.node.isDir ∧ e.len = e.node.len ∧
      ex.contains e.file_name = false := by
  cases n with
  | file c oe => simp [listNode] at h
  | dir es err =>
    cases err with
    | some m => simp [listNode] at h
    | none =>
      simp only [listNode, Except.ok.injEq] at h
      subst h
      rw [List.mem_insertionSort] at he
      rcases List.mem_map.mp he with ⟨x, hx, rfl⟩
      rcases List.mem_filter.mp hx with ⟨hxm, hxe⟩
      refine ⟨es, none, rfl, ?_, rfl, rfl, rfl, ?_⟩
      · simpa [mkEntry] using hxm
      · simpa [mkEntry] using hxe

theorem listNode_mem_height {ex : List Name} {p : FPath} {n : FsNode} {l : List EntryInfo}
    (h : listNode ex p n = .ok l) {e : EntryInfo} (he : e ∈ l) :
    e.node.height < n.height := by
  rcases listNode_mem h he with ⟨es, err, rfl, hmem, -⟩
  have := Entries.height_mem es (e.file_name, e.node) hmem
  dsimp only at this
  simp only [FsNode.height]
  omega

theorem mergeWalkF_dirs_mem :
    ∀ (f : Nat) (cmp : EntryInfo → EntryInfo → List Classification) (am : Bool)
      (l1 l2 : List EntryInfo) (dp : EntryInfo × EntryInfo),
    dp ∈ (mergeWalkF cmp am f l1 l2).dirs → dp.1 ∈ l1 ∧ dp.2 ∈ l2 := by
  intro f
  induction f with
  | zero => intro cmp am l1 l2 dp h; rw [mergeWalkF_zero] at h; simp at h
  | succ fh ih =>
    intro cmp am l1 l2 dp h
    cases l1 with
    | nil =>
      cases l2 with
      | nil => rw [mergeWalkF_succ_nil_nil] at h; simp at h
      | cons b bs =>
        rw [mergeWalkF_succ_nil_cons] at h
        have := ih cmp am [] bs dp h
        exact ⟨this.1, List.mem_cons_of_mem b this.2⟩
    | cons a as =>
      cases l2 with
      | nil =>
        rw [mergeWalkF_succ_cons_nil] at h
        have := ih cmp am as [] dp h
        exact ⟨List.mem_cons_of_mem a this.1, this.2⟩
      | cons b bs =>
        rw [mergeWalkF_succ_cons_cons] at h
        rcases byteCmp_cases a.file_name b.file_name with hc | hc | hc <;>
          rw [hc] at h <;> dsimp only at h
        · have := ih cmp am as (b :: bs) dp h
          exact ⟨List.mem_cons_of_mem a this.1, this.2⟩
        · split_ifs at h with h1 h2 h3 h4
          · have := ih cmp am as bs dp h
            exact ⟨List.mem_cons_of_mem a this.1, List.mem_cons_of_mem b this.2⟩
          · simp only [List.mem_cons] at h
            rcases h with rfl | h
            · exact ⟨List.mem_cons_self a as, List.mem_cons_self b bs⟩
            · have := ih cmp am as bs dp h
              exact ⟨List.mem_cons_of_mem a this.1, List.mem_cons_of_mem b this.2⟩
          · have := ih cmp am as bs dp h
            exact ⟨List.mem_cons_of_mem a this.1, List.mem_cons_of_mem b this.2⟩
          · have := ih cmp am as bs dp h
            exact ⟨List.mem_cons_of_mem a this.1, List.mem_cons_of_mem b this.2⟩
          · have := ih cmp am as bs dp h
            exact ⟨List.mem_cons_of_mem a this.1, List.mem_cons_of_mem b this.2⟩
          · have := ih cmp am as bs dp h
            exact ⟨List.mem_cons_of_mem a this.1, List.mem_cons_of_mem b this.2⟩
        · have := ih cmp am (a :: as) bs dp h
          exact ⟨this.1, List.mem_cons_of_mem b this.2⟩

theorem mergeWalk_dirs_mem {cmp : EntryInfo → EntryInfo → List Classification} {am : Bool}
    {l1 l2 : List EntryInfo} {dp : EntryInfo × EntryInfo}
    (h : dp ∈ (mergeWalk cmp am l1 l2).dirs) : dp.1 ∈ l1 ∧ dp.2 ∈ l2 :=
  mergeWalkF_dirs_mem _ cmp am l1 l2 dp h

theorem compareFuel_succ (ex : List Name) (am : Bool) (f : Nat) (p1 p2 : FPath)
    (n1 n2 : FsNode) :
    compareFuel ex am (f + 1) p1 p2 n1 n2 =
      (match listNode ex p1 n1 with
      | .error m => .error m
      | .ok l1 =>
        match listNode ex p2 n2 with
        | .error m => .error m
        | .ok l2 =>
          let r := mergeWalk (fileResult am) am l1 l2
          .ok (r.outs
            ++ r.files.flatMap (fun fp => fileResult am fp.1 fp.2)
            ++ r.dirs.flatMap (fun dp =>
                match compareFuel ex am f dp.1.path dp.2.path dp.1.node dp.2.node with
                | .ok cs => cs
                | .error m => [.cmpError dp.1.path dp.2.path m]))) := rfl

theorem compareFuel_irrel : ∀ f f' : Nat, ∀ (ex : List Name) (am : Bool) (p1 p2 : FPath)
    (n1 n2 : FsNode), n1.height < f → n1.height < f' →
    compareFuel ex am f p1 p2 n1 n2 = compareFuel ex am f' p1 p2 n1 n2 := by
  intro f
  induction f with
  | zero => intro f' ex am p1 p2 n1 n2 h; omega
  | succ fh ih =>
    intro f' ex am p1 p2 n1 n2 h h'
    cases f' with
    | zero => omega
    | succ fh' =>
      rw [compareFuel_succ, compareFuel_succ]
      cases h1 : listNode ex p1 n1 with
      | error m => rfl
      | ok l1 =>
        cases h2 : listNode ex p2 n2 with
        | error m => rfl
        | ok l2 =>
          dsimp only
          congr 2
          rw [List.flatMap_def, List.flatMap_def]
          congr 1
          apply List.map_congr_left
          intro dp hdp
          have hd1 : dp.1 ∈ l1 := (mergeWalk_dirs_mem hdp).1
          have hh : dp.1.node.height < n1.height := listNode_mem_height h1 hd1
          rw [ih fh' ex am dp.1.path dp.2.path dp.1.node dp.2.node (by omega) (by omega)]

theorem compareFuel_eq {f : Nat} {ex : List Name} {am : Bool} {p1 p2 : FPath} {n1 n2 : FsNode}
    (h : n1.height < f) :
    compareFuel ex am f p1 p2 n1 n2 = compareDirectories ex am p1 p2 n1 n2 :=
  compareFuel_irrel f (n1.height + 1) ex am p1 p2 n1 n2 h (by omega)

theorem compareDirectories_error_left {ex : List Name} {am : Bool} {p1 p2 : FPath}
    {n1 n2 : FsNode} {m : String} (h : listNode ex p1 n1 = .error m) :
    compareDirectories ex am p1 p2 n1 n2 = .error m := by
  unfold compareDirectories
  rw [compareFuel_succ, h]

theorem compareDirectories_error_right {ex : List Name} {am : Bool} {p1 p2 : FPath}
    {n1 n2 : FsNode} {l1 : List EntryInfo} {m : String}
    (h1 : listNode ex p1 n1 = .ok l1) (h2 : listNode ex p2 n2 = .error m) :
    compareDirectories ex am p1 p2 n1 n2 = .error m := by
  unfold compareDirectories
  rw [compareFuel_succ, h1, h2]

theorem compareDirectories_ok {ex : List Name} {am : Bool} {p1 p2 : FPath}
    {n1 n2 : FsNode} {l1 l2 : List EntryInfo}
    (h1 : listNode ex p1 n1 = .ok l1) (h2 : listNode ex p2 n2 = .ok l2) :
    compareDirectories ex am p1 p2 n1 n2 =
      .ok ((mergeWalk (fileResult am) am l1 l2).outs
        ++ (mergeWalk (fileResult am) am l1 l2).files.flatMap
            (fun fp => fileResult am fp.1 fp.2)
        ++ (mergeWalk (fileResult am) am l1 l2).dirs.flatMap (childOut ex am)) := by
  unfold compareDirectories
  rw [compareFuel_succ, h1, h2]
  dsimp only
  congr 2
  rw [List.flatMap_def, List.flatMap_def]
  congr 1
  apply List.map_congr_left
  intro dp hdp
  have hd1 : dp.1 ∈ l1 := (mergeWalk_dirs_mem hdp).1
  have hh : dp.1.node.height < n1.height := listNode_mem_height h1 hd1
  rw [childOut]
  rw [compareFuel_eq hh]

/-! ### Lookup and sortedness helpers -/

theorem entryLt_ne {a b : EntryInfo} (h : entryLt a b) : a.file_name ≠ b.file_name := by
  intro hn
  unfold entryLt at h
  rw [hn, byteCmp_self] at h
  simp at h

theorem findName_nil (n : Name) : findName [] n = none := rfl

theorem findName_cons (e : EntryInfo) (l : List EntryInfo) (n : Name) :
    findName (e :: l) n = if e.file_name = n then some e else findName l n := by
  rcases eq_or_ne e.file_name n with h | h
  · rw [if_pos h]
    exact List.find?_cons_of_pos _ (beq_iff_eq.mpr h)
  · rw [if_neg h]
    exact List.find?_cons_of_neg _ (by simpa using h)

theorem findName_eq_none {l : List EntryInfo} {n : Name} (h : ∀ e ∈ l, e.file_name ≠ n) :
    findName l n = none := by
  apply List.find?_eq_none.mpr
  intro x hx
  simpa using h x hx

theorem findName_none_of_lt {b : EntryInfo} {bs : List EntryInfo}
    (hs : (b :: bs).Pairwise entryLt) {n : Name} (h : byteCmp n b.file_name = .lt) :
    findName (b :: bs) n = none := by
  apply findName_eq_none
  intro e he hn
  rcases List.mem_cons.mp he with rfl | he
  · rw [hn, byteCmp_self] at h
    simp at h
  · have hbe : entryLt b e := (List.pairwise_cons.mp hs).1 e he
    have : byteCmp n e.file_name = .lt := byteCmp_lt_trans h hbe
    rw [hn, byteCmp_self] at this
    simp at this

theorem findName_head_none {a : EntryInfo} {as : List EntryInfo}
    (hs : (a :: as).Pairwise entryLt) : findName as a.file_name = none := by
  apply findName_eq_none
  intro e he hn
  exact entryLt_ne ((List.pairwise_cons.mp hs).1 e he) hn.symm

theorem matchedPairs_nil_left (l2 : List EntryInfo) : matchedPairs [] l2 = [] := rfl

theorem matchedPairs_cons (a : EntryInfo) (as l2 : List EntryInfo) :
    matchedPairs (a :: as) l2 =
      (match findName l2 a.file_name with
        | some b => (a, b) :: matchedPairs as l2
        | none => matchedPairs as l2) := by
  simp only [matchedPairs, List.filterMap_cons]
  cases findName l2 a.file_name <;> simp [Option.map]

theorem matchedPairs_nil_right (l1 : List EntryInfo) : matchedPairs l1 [] = [] := by
  induction l1 with
  | nil => rfl
  | cons a as ih => rw [matchedPairs_cons, findName_nil, ih]

theorem matchedPairs_congr {l1 l2 l2' : List EntryInfo}
    (h : ∀ a ∈ l1, findName l2 a.file_name = findName l2' a.file_name) :
    matchedPairs l1 l2 = matchedPairs l1 l2' := by
  induction l1 with
  | nil => rfl
  | cons a as ih =>
    rw [matchedPairs_cons, matchedPairs_cons, h a (List.mem_cons_self a as),
      ih (fun e he => h e (List.mem_cons_of_mem a he))]

/-- In the `gt` merge step, dropping the right head does not change the
matches of the left entries. -/
theorem matchedPairs_drop_head {a b : EntryInfo} {as bs : List EntryInfo}
    (hs1 : (a :: as).Pairwise entryLt)
    (hc : byteCmp a.file_name b.file_name = .gt) :
    matchedPairs (a :: as) (b :: bs) = matchedPairs (a :: as) bs := by
  apply matchedPairs_congr
  intro e he
  rw [findName_cons]
  rw [if_neg]
  intro hn
  rcases List.mem_cons.mp he with rfl | he
  · rw [hn, byteCmp_self] at hc
    simp at hc
  · have hae : entryLt a e := (List.pairwise_cons.mp hs1).1 e he
    rw [byteCmp_gt_iff_lt] at hc
    have : byteCmp b.file_name e.file_name = .lt := byteCmp_lt_trans hc hae
    rw [hn, byteCmp_self] at this
    simp at this

/-- In the `eq` merge step, the left tail does not match the right head. -/
theorem matchedPairs_tail_eq {a b : EntryInfo} {as bs : List EntryInfo}
    (hs1 : (a :: as).Pairwise entryLt)
    (hc : byteCmp a.file_name b.file_name = .eq) :
    matchedPairs as (b :: bs) = matchedPairs as bs := by
  apply matchedPairs_congr
  intro e he
  rw [findName_cons]
  rw [if_neg]
  intro hn
  have hae : entryLt a e := (List.pairwise_cons.mp hs1).1 e he
  rw [byteCmp_eq_iff] at hc
  unfold entryLt at hae
  rw [← hn, ← hc, byteCmp_self] at hae
  simp at hae

/-! ### Characterization of the merge pass: pending jobs -/

theorem dirPairs_nil_right (l1 : List EntryInfo) : dirPairs l1 [] = [] := by
  rw [dirPairs, matchedPairs_nil_right]
  rfl

theorem filePairs_nil_right (l1 : List EntryInfo) : filePairs l1 [] = [] := by
  rw [filePairs, matchedPairs_nil_right]
  rfl

theorem mergeWalkF_pending :
    ∀ (f : Nat) (cmp : EntryInfo → EntryInfo → List Classification) (am : Bool)
      (l1 l2 : List EntryInfo),
    l1.length + l2.length < f → l1.Pairwise entryLt → l2.Pairwise entryLt →
    (mergeWalkF cmp am f l1 l2).dirs = dirPairs l1 l2 ∧
    (mergeWalkF cmp am f l1 l2).files = (if am then [] else filePairs l1 l2) ∧
    (mergeWalkF cmp am f l1 l2).invoked = (if am then filePairs l1 l2 else []) := by
  intro f
  induction f with
  | zero => intro cmp am l1 l2 hf; omega
  | succ fh ih =>
    intro cmp am l1 l2 hf hs1 hs2
    cases l1 with
    | nil =>
      cases l2 with
      | nil =>
        rw [mergeWalkF_succ_nil_nil]
        refine ⟨rfl, ?_, ?_⟩ <;> cases am <;> rfl
      | cons b bs =>
        rw [mergeWalkF_succ_nil_cons]
        have := ih cmp am [] bs (by simp at hf ⊢; omega) List.Pairwise.nil hs2.of_cons
        exact this
    | cons a as =>
      cases l2 with
      | nil =>
        rw [mergeWalkF_succ_cons_nil]
        have := ih cmp am as [] (by simp at hf ⊢; omega) hs1.of_cons List.Pairwise.nil
        rw [dirPairs_nil_right, filePairs_nil_right] at this ⊢
        exact this
      | cons b bs =>
        rw [mergeWalkF_succ_cons_cons]
        rcases byteCmp_cases a.file_name b.file_name with hc | hc | hc <;>
          rw [hc] <;> dsimp only
        · -- a < b : a is unmatched, advance left
          have := ih cmp am as (b :: bs) (by simp at hf ⊢; omega) hs1.of_cons hs2
          have hnone : findName (b :: bs) a.file_name = none := findName_none_of_lt hs2 hc
          have hmp : matchedPairs (a :: as) (b :: bs) = matchedPairs as (b :: bs) := by
            rw [matchedPairs_cons, hnone]
          rw [dirPairs, filePairs, hmp, ← dirPairs, ← filePairs]
          exact this
        · -- equal names: resolve the pair
          have hn : a.file_name = b.file_name := (byteCmp_eq_iff _ _).mp hc
          obtain ⟨hd, hfi, hin⟩ :=
            ih cmp am as bs (by simp at hf ⊢; omega) hs1.of_cons hs2.of_cons
          have hfind : findName (b :: bs) a.file_name = some b := by
            rw [findName_cons, if_pos hn.symm]
          have hmp : matchedPairs (a :: as) (b :: bs) = (a, b) :: matchedPairs as bs := by
            rw [matchedPairs_cons, hfind]
            dsimp only
            rw [matchedPairs_tail_eq hs1 hc]
          have hdp : dirPairs (a :: as) (b :: bs) =
              (if (a.is_dir && b.is_dir) = true then (a, b) :: dirPairs as bs
               else dirPairs as bs) := by
            unfold dirPairs
            rw [hmp, List.filter_cons]
          have hfp : filePairs (a :: as) (b :: bs) =
              (if (!a.is_dir && !b.is_dir && a.len == b.len && decide (0 < a.len)) = true
               then (a, b) :: filePairs as bs else filePairs as bs) := by
            unfold filePairs
            rw [hmp, List.filter_cons]
          rw [hdp, hfp]
          by_cases h1 : a.is_dir ≠ b.is_dir
          · rw [if_pos h1]
            dsimp only
            have hbd : ¬ ((a.is_dir && b.is_dir) = true) := by
              cases hA : a.is_dir <;> cases hB : b.is_dir <;> simp_all
            have hbf : ¬ ((!a.is_dir && !b.is_dir && a.len == b.len && decide (0 < a.len)) = true) := by
              cases hA : a.is_dir <;> cases hB : b.is_dir <;> simp_all
            rw [if_neg hbd, if_neg hbf]
            exact ⟨hd, hfi, hin⟩
          · have heq : a.is_dir = b.is_dir := not_not.mp h1
            rw [if_neg h1]
            by_cases h2 : a.is_dir = true
            · rw [if_pos h2]
              dsimp only
              have hbd : (a.is_dir && b.is_dir) = true := by
                rw [← heq, h2]
                rfl
              have hbf : ¬ ((!a.is_dir && !b.is_dir && a.len == b.len && decide (0 < a.len)) = true) := by
                rw [h2]
                simp
              rw [if_pos hbd, if_neg hbf]
              exact ⟨by rw [hd], hfi, hin⟩
            · have ha2 : a.is_dir = false := Bool.not_eq_true _ ▸ Bool.of_not_eq_true h2
              have hb2 : b.is_dir = false := heq ▸ ha2
              rw [if_neg h2]
              have hbd : ¬ ((a.is_dir && b.is_dir) = true) := by
                rw [ha2]
                simp
              by_cases h3 : a.len ≠ b.len
              · rw [if_pos h3]
                dsimp only
                have hbf : ¬ ((!a.is_dir && !b.is_dir && a.len == b.len && decide (0 < a.len)) = true) := by
                  have : (a.len == b.len) = false := by simpa using h3
                  rw [this]
                  simp
                rw [if_neg hbd, if_neg hbf]
                exact ⟨hd, hfi, hin⟩
              · have hlen : a.len = b.len := not_not.mp h3
                rw [if_neg h3]
                by_cases h4 : 0 < a.len
                · rw [if_pos h4]
                  have hbf : (!a.is_dir && !b.is_dir && a.len == b.len && decide (0 < a.len)) = true := by
                    rw [ha2, hb2]
                    simp [hlen]
                    omega
                  rw [if_neg hbd, if_pos hbf]
                  cases am
                  · rw [if_neg (by simp)]
                    dsimp only
                    rw [if_neg (by simp)] at hfi hin
                    exact ⟨hd, by rw [hfi]; simp, by rw [hin]; simp⟩
                  · rw [if_pos rfl]
                    dsimp only
                    rw [if_pos rfl] at hfi hin
                    exact ⟨hd, by rw [hfi]; simp, by rw [hin]; simp⟩
                · rw [if_neg h4]
                  have hbf : ¬ ((!a.is_dir && !b.is_dir && a.len == b.len && decide (0 < a.len)) = true) := by
                    have : decide (0 < a.len) = false := by simpa using h4
                    rw [this]
                    simp
                  rw [if_neg hbd, if_neg hbf]
                  exact ⟨hd, hfi, hin⟩
        · -- a > b : b is unmatched, advance right
          have := ih cmp am (a :: as) bs (by simp at hf ⊢; omega) hs1 hs2.of_cons
          have hmp := @matchedPairs_drop_head a b as bs hs1 hc
          rw [dirPairs, filePairs, hmp, ← dirPairs, ← filePairs]
          exact this

theorem mergeWalk_pending {cmp : EntryInfo → EntryInfo → List Classification} {am : Bool}
    {l1 l2 : List EntryInfo} (hs1 : l1.Pairwise entryLt) (hs2 : l2.Pairwise entryLt) :
    (mergeWalk cmp am l1 l2).dirs = dirPairs l1 l2 ∧
    (mergeWalk cmp am l1 l2).files = (if am then [] else filePairs l1 l2) ∧
    (mergeWalk cmp am l1 l2).invoked = (if am then filePairs l1 l2 else []) :=
  mergeWalkF_pending _ cmp am l1 l2 (by omega) hs1 hs2

/-! ### Characterization of the merge pass: Deleted and Added events -/

theorem byteCmp_ne_of_lt {m n : Name} (h : byteCmp m n = .lt) : m ≠ n := by
  intro h2
  rw [h2, byteCmp_self] at h
  simp at h

theorem lt_all {b : EntryInfo} {bs : List EntryInfo} (hs : (b :: bs).Pairwise entryLt)
    {n : Name} (h : byteCmp n b.file_name = .lt) :
    ∀ e ∈ b :: bs, byteCmp n e.file_name = .lt := by
  intro e he
  rcases List.mem_cons.mp he with rfl | he
  · exact h
  · exact byteCmp_lt_trans h ((List.pairwise_cons.mp hs).1 e he)

theorem deletedPaths_append (l1 l2 : List Classification) :
    deletedPaths (l1 ++ l2) = deletedPaths l1 ++ deletedPaths l2 := by
  simp [deletedPaths]

theorem addedPaths_append (l1 l2 : List Classification) :
    addedPaths (l1 ++ l2) = addedPaths l1 ++ addedPaths l2 := by
  simp [addedPaths]

theorem deletedPaths_fileResult (am : Bool) (a b : EntryInfo) :
    deletedPaths (fileResult am a b) = [] := by
  unfold fileResult
  cases filesAreIdentical a.node b.node with
  | ok v => cases v <;> cases am <;> rfl
  | error m => rfl

theorem addedPaths_fileResult (am : Bool) (a b : EntryInfo) :
    addedPaths (fileResult am a b) = [] := by
  unfold fileResult
  cases filesAreIdentical a.node b.node with
  | ok v => cases v <;> cases am <;> rfl
  | error m => rfl

theorem delPred_tail {e b : EntryInfo} {bs : List EntryInfo} (hne : b.file_name ≠ e.file_name) :
    delPred (b :: bs) e = delPred bs e := by
  unfold delPred
  rw [findName_cons, if_neg hne]

theorem addPred_tail {e a : EntryInfo} {as : List EntryInfo} (hne : a.file_name ≠ e.file_name) :
    addPred (a :: as) e = addPred as e := by
  unfold addPred
  rw [findName_cons, if_neg hne]

theorem mergeWalkF_deleted_added :
    ∀ (f : Nat) (am : Bool) (l1 l2 : List EntryInfo),
    l1.length + l2.length < f → l1.Pairwise entryLt → l2.Pairwise entryLt →
    deletedPaths (mergeWalkF (fileResult am) am f l1 l2).outs
        = (l1.filter (fun a => delPred l2 a)).map (fun e => e.path) ∧
    addedPaths (mergeWalkF (fileResult am) am f l1 l2).outs
        = (l2.filter (fun b => addPred l1 b)).map (fun e => e.path) := by
  intro f
  induction f with
  | zero => intro am l1 l2 hf; omega
  | succ fh ih =>
    intro am l1 l2 hf hs1 hs2
    cases l1 with
    | nil =>
      cases l2 with
      | nil => rw [mergeWalkF_succ_nil_nil]; exact ⟨rfl, rfl⟩
      | cons b bs =>
        rw [mergeWalkF_succ_nil_cons]
        obtain ⟨ihd, iha⟩ := ih am [] bs (by simp at hf ⊢; omega) List.Pairwise.nil hs2.of_cons
        constructor
        · exact ihd
        · show b.path :: addedPaths (mergeWalkF (fileResult am) am fh [] bs).outs = _
          rw [iha, List.filter_cons]
          rw [if_pos (by unfold addPred; rw [findName_nil])]
          rfl
    | cons a as =>
      cases l2 with
      | nil =>
        rw [mergeWalkF_succ_cons_nil]
        obtain ⟨ihd, iha⟩ := ih am as [] (by simp at hf ⊢; omega) hs1.of_cons List.Pairwise.nil
        constructor
        · show a.path :: deletedPaths (mergeWalkF (fileResult am) am fh as []).outs = _
          rw [ihd, List.filter_cons]
          rw [if_pos (by unfold delPred; rw [findName_nil])]
          rfl
        · exact iha
      | cons b bs =>
        rw [mergeWalkF_succ_cons_cons]
        rcases byteCmp_cases a.file_name b.file_name with hc | hc | hc <;>
          rw [hc] <;> dsimp only
        · -- a < b
          obtain ⟨ihd, iha⟩ := ih am as (b :: bs) (by simp at hf ⊢; omega) hs1.of_cons hs2
          have hane : ∀ e ∈ b :: bs, a.file_name ≠ e.file_name :=
            fun e he => byteCmp_ne_of_lt (lt_all hs2 hc e he)
          constructor
          · show a.path :: deletedPaths (mergeWalkF (fileResult am) am fh as (b :: bs)).outs = _
            rw [ihd, List.filter_cons]
            rw [if_pos (by unfold delPred; rw [findName_none_of_lt hs2 hc])]
            rfl
          · show addedPaths (mergeWalkF (fileResult am) am fh as (b :: bs)).outs = _
            rw [iha]
            congr 1
            exact List.filter_congr (fun e he => (@addPred_tail e a as (hane e he)).symm)
        · -- equal names
          have hn : a.file_name = b.file_name := (byteCmp_eq_iff _ _).mp hc
          obtain ⟨ihd, iha⟩ := ih am as bs (by simp at hf ⊢; omega) hs1.of_cons hs2.of_cons
          have hfind : findName (b :: bs) a.file_name = some b := by
            rw [findName_cons, if_pos hn.symm]
          have hfind2 : findName (a :: as) b.file_name = some a := by
            rw [findName_cons, if_pos hn]
          have htl1 : ∀ e ∈ as, b.file_name ≠ e.file_name := by
            intro e he hne
            have : entryLt a e := (List.pairwise_cons.mp hs1).1 e he
            unfold entryLt at this
            rw [← hne, ← hn, byteCmp_self] at this
            simp at this
          have htl2 : ∀ e ∈ bs, a.file_name ≠ e.file_name := by
            intro e he hne
            have : entryLt b e := (List.pairwise_cons.mp hs2).1 e he
            unfold entryLt at this
            rw [← hne, hn, byteCmp_self] at this
            simp at this
          have hfl1 : List.filter (fun e => delPred (b :: bs) e) as
              = List.filter (fun e => delPred bs e) as :=
            List.filter_congr (fun e he => delPred_tail (htl1 e he))
          have hfl2 : List.filter (fun e => addPred (a :: as) e) bs
              = List.filter (fun e => addPred as e) bs :=
            List.filter_congr (fun e he => addPred_tail (htl2 e he))
          have hda : delPred (b :: bs) a = (a.is_dir != b.is_dir) := by
            unfold delPred
            rw [hfind]
          have hab : addPred (a :: as) b = (a.is_dir != b.is_dir) := by
            unfold addPred
            rw [hfind2]
          by_cases h1 : a.is_dir ≠ b.is_dir
          · rw [if_pos h1]
            dsimp only
            have hbne : (a.is_dir != b.is_dir) = true := bne_iff_ne.mpr h1
            constructor
            · show a.path :: deletedPaths (mergeWalkF (fileResult am) am fh as bs).outs = _
              rw [ihd, List.filter_cons, hda, hbne, if_pos rfl, hfl1]
              rfl
            · show b.path :: addedPaths (mergeWalkF (fileResult am) am fh as bs).outs = _
              rw [iha, List.filter_cons, hab, hbne, if_pos rfl, hfl2]
              rfl
          · have hbne : (a.is_dir != b.is_dir) = false := by
              simpa using not_not.mp h1
            rw [if_neg h1]
            have hfilter1 : List.filter (fun e => delPred (b :: bs) e) (a :: as)
                = List.filter (fun e => delPred bs e) as := by
              rw [List.filter_cons, hda, hbne, if_neg (by simp), hfl1]
            have hfilter2 : List.filter (fun e => addPred (a :: as) e) (b :: bs)
                = List.filter (fun e => addPred as e) bs := by
              rw [List.filter_cons, hab, hbne, if_neg (by simp), hfl2]
            rw [hfilter1, hfilter2]
            by_cases h2 : a.is_dir = true
            · rw [if_pos h2]
              exact ⟨ihd, iha⟩
            · rw [if_neg h2]
              by_cases h3 : a.len ≠ b.len
              · rw [if_pos h3]
                dsimp only
                exact ⟨ihd, iha⟩
              · rw [if_neg h3]
                by_cases h4 : 0 < a.len
                · rw [if_pos h4]
                  cases am
                  · rw [if_neg (by simp)]
                    exact ⟨ihd, iha⟩
                  · rw [if_pos rfl]
                    dsimp only
                    rw [deletedPaths_append, addedPaths_append,
                      deletedPaths_fileResult, addedPaths_fileResult]
                    exact ⟨ihd, iha⟩
                · rw [if_neg h4]
                  exact ⟨ihd, iha⟩
        · -- a > b
          obtain ⟨ihd, iha⟩ := ih am (a :: as) bs (by simp at hf ⊢; omega) hs1 hs2.of_cons
          have hblt : byteCmp b.file_name a.file_name = .lt := (byteCmp_gt_iff_lt _ _).mp hc
          have hbne : ∀ e ∈ a :: as, b.file_name ≠ e.file_name :=
            fun e he => byteCmp_ne_of_lt (lt_all hs1 hblt e he)
          constructor
          · show deletedPaths (mergeWalkF (fileResult am) am fh (a :: as) bs).outs = _
            rw [ihd]
            congr 1
            exact List.filter_congr (fun e he => (@delPred_tail e b bs (hbne e he)).symm)
          · show b.path :: addedPaths (mergeWalkF (fileResult am) am fh (a :: as) bs).outs = _
            rw [iha, List.filter_cons]
            rw [if_pos (by unfold addPred; rw [findName_none_of_lt hs1 hblt])]
            rfl

theorem mergeWalk_deleted_added {am : Bool} {l1 l2 : List EntryInfo}
    (hs1 : l1.Pairwise entryLt) (hs2 : l2.Pairwise entryLt) :
    deletedPaths (mergeWalk (fileResult am) am l1 l2).outs
        = (l1.filter (fun a => delPred l2 a)).map (fun e => e.path) ∧
    addedPaths (mergeWalk (fileResult am) am l1 l2).outs
        = (l2.filter (fun b => addPred l1 b)).map (fun e => e.path) :=
  mergeWalkF_deleted_added _ am l1 l2 (by omega) hs1 hs2

/-! ### Characterization of the merge pass: name order of emitted events -/

theorem pathName_append (p : FPath) (n : Name) : pathName (p ++ [n]) = n := by
  simp [pathName]

theorem fileResult_nameOf {am : Bool} {a b : EntryInfo} {c : Classification}
    (h : c ∈ fileResult am a b) : c.nameOf = pathName b.path := by
  unfold fileResult at h
  cases hq : filesAreIdentical a.node b.node with
  | ok v =>
    rw [hq] at h
    cases v
    · simp only [List.mem_singleton] at h
      subst h
      rfl
    · cases am
      · simp at h
      · simp at h
        subst h
        rfl
  | error m =>
    rw [hq] at h
    simp only [List.mem_singleton] at h
    subst h
    rfl

theorem fileResult_length {am : Bool} {a b : EntryInfo} :
    (fileResult am a b).length ≤ 1 := by
  unfold fileResult
  cases filesAreIdentical a.node b.node with
  | ok v => cases v <;> cases am <;> simp
  | error m => simp

theorem mergeWalkF_outs_names :
    ∀ (f : Nat) (am : Bool) (l1 l2 : List EntryInfo),
    l1.length + l2.length < f →
    (∀ e ∈ l1, pathName e.path = e.file_name) → (∀ e ∈ l2, pathName e.path = e.file_name) →
    ∀ c ∈ (mergeWalkF (fileResult am) am f l1 l2).outs,
      ∃ e, (e ∈ l1 ∨ e ∈ l2) ∧ c.nameOf = e.file_name := by
  intro f
  induction f with
  | zero => intro am l1 l2 hf; omega
  | succ fh ih =>
    intro am l1 l2 hf hp1 hp2 c hc
    cases l1 with
    | nil =>
      cases l2 with
      | nil => rw [mergeWalkF_succ_nil_nil] at hc; simp at hc
      | cons b bs =>
        rw [mergeWalkF_succ_nil_cons] at hc
        rcases List.mem_cons.mp hc with rfl | hc
        · exact ⟨b, .inr (List.mem_cons_self b bs), by
            show pathName b.path = _
            exact hp2 b (List.mem_cons_self b bs)⟩
        · rcases ih am [] bs (by simp at hf ⊢; omega) hp1
            (fun e he => hp2 e (List.mem_cons_of_mem b he)) c hc with ⟨e, he, hn⟩
          exact ⟨e, he.imp id (List.mem_cons_of_mem b), hn⟩
    | cons a as =>
      cases l2 with
      | nil =>
        rw [mergeWalkF_succ_cons_nil] at hc
        rcases List.mem_cons.mp hc with rfl | hc
        · exact ⟨a, .inl (List.mem_cons_self a as), by
            show pathName a.path = _
            exact hp1 a (List.mem_cons_self a as)⟩
        · rcases ih am as [] (by simp at hf ⊢; omega)
            (fun e he => hp1 e (List.mem_cons_of_mem a he)) hp2 c hc with ⟨e, he, hn⟩
          exact ⟨e, he.imp (List.mem_cons_of_mem a) id, hn⟩
      | cons b bs =>
        rw [mergeWalkF_succ_cons_cons] at hc
        have hp1t : ∀ e ∈ as, pathName e.path = e.file_name :=
          fun e he => hp1 e (List.mem_cons_of_mem a he)
        have hp2t : ∀ e ∈ bs, pathName e.path = e.file_name :=
          fun e he => hp2 e (List.mem_cons_of_mem b he)
        have hpa : pathName a.path = a.file_name := hp1 a (List.mem_cons_self a as)
        have hpb : pathName b.path = b.file_name := hp2 b (List.mem_cons_self b bs)
        rcases byteCmp_cases a.file_name b.file_name with hcc | hcc | hcc <;>
          rw [hcc] at hc <;> dsimp only at hc
        · rcases List.mem_cons.mp hc with rfl | hc
          · exact ⟨a, .inl (List.mem_cons_self a as), hpa⟩
          · rcases ih am as (b :: bs) (by simp at hf ⊢; omega) hp1t hp2 c hc with ⟨e, he, hn⟩
            exact ⟨e, he.imp (List.mem_cons_of_mem a) id, hn⟩
        · have hmem : ∀ d ∈ (mergeWalkF (fileResult am) am fh as bs).outs,
              ∃ e, (e ∈ a :: as ∨ e ∈ b :: bs) ∧ d.nameOf = e.file_name := by
            intro d hd
            rcases ih am as bs (by simp at hf ⊢; omega) hp1t hp2t d hd with ⟨e, he, hn⟩
            exact ⟨e, he.imp (List.mem_cons_of_mem a) (List.mem_cons_of_mem b), hn⟩
          split_ifs at hc with h1 h2 h3 h4 h5
          · rcases List.mem_cons.mp hc with rfl | hc
            · exact ⟨a, .inl (List.mem_cons_self a as), hpa⟩
            · rcases List.mem_cons.mp hc with rfl | hc
              · exact ⟨b, .inr (List.mem_cons_self b bs), hpb⟩
              · exact hmem c hc
          · exact hmem c hc
          · rcases List.mem_cons.mp hc with rfl | hc
            · exact ⟨b, .inr (List.mem_cons_self b bs), hpb⟩
            · exact hmem c hc
          · rcases List.mem_append.mp hc with hc | hc
            · exact ⟨b, .inr (List.mem_cons_self b bs), by rw [fileResult_nameOf hc, hpb]⟩
            · exact hmem c hc
          · exact hmem c hc
          · exact hmem c hc
        · rcases List.mem_cons.mp hc with rfl | hc
          · exact ⟨b, .inr (List.mem_cons_self b bs), hpb⟩
          · rcases ih am (a :: as) bs (by simp at hf ⊢; omega) hp1 hp2t c hc with ⟨e, he, hn⟩
            exact ⟨e, he.imp id (List.mem_cons_of_mem b), hn⟩

theorem nameLe_of_lt {m n : Name} (h : byteCmp m n = .lt) : nameLe m n := by
  unfold nameLe
  rw [h]
  simp

theorem nameLe_refl (n : Name) : nameLe n n := by
  unfold nameLe
  rw [byteCmp_self]
  simp

theorem nameLe_of_eq {m n : Name} (h : m = n) : nameLe m n := h ▸ nameLe_refl m

theorem pairwise_of_length_le_one {α : Type} {R : α → α → Prop} :
    ∀ {l : List α}, l.length ≤ 1 → l.Pairwise R
  | [], _ => .nil
  | [_], _ => List.pairwise_singleton _ _
  | _ :: _ :: _, h => by simp at h

theorem mergeWalkF_outs_sorted :
    ∀ (f : Nat) (am : Bool) (l1 l2 : List EntryInfo),
    l1.length + l2.length < f →
    l1.Pairwise entryLt → l2.Pairwise entryLt →
    (∀ e ∈ l1, pathName e.path = e.file_name) → (∀ e ∈ l2, pathName e.path = e.file_name) →
    (mergeWalkF (fileResult am) am f l1 l2).outs.Pairwise
      (fun c d => nameLe c.nameOf d.nameOf) := by
  intro f
  induction f with
  | zero => intro am l1 l2 hf; omega
  | succ fh ih =>
    intro am l1 l2 hf hs1 hs2 hp1 hp2
    cases l1 with
    | nil =>
      cases l2 with
      | nil => rw [mergeWalkF_succ_nil_nil]; exact .nil
      | cons b bs =>
        rw [mergeWalkF_succ_nil_cons]
        refine List.Pairwise.cons ?_
          (ih am [] bs (by simp at hf ⊢; omega) .nil hs2.of_cons hp1
            (fun e he => hp2 e (List.mem_cons_of_mem b he)))
        intro d hd
        rcases mergeWalkF_outs_names fh am [] bs (by simp at hf ⊢; omega) hp1
          (fun e he => hp2 e (List.mem_cons_of_mem b he)) d hd with ⟨e, he, hn⟩
        rcases he with he | he
        · simp at he
        · show nameLe (Classification.added b.path).nameOf d.nameOf
          have : (Classification.added b.path).nameOf = b.file_name :=
            hp2 b (List.mem_cons_self b bs)
          rw [this, hn]
          exact nameLe_of_lt ((List.pairwise_cons.mp hs2).1 e he)
    | cons a as =>
      cases l2 with
      | nil =>
        rw [mergeWalkF_succ_cons_nil]
        refine List.Pairwise.cons ?_
          (ih am as [] (by simp at hf ⊢; omega) hs1.of_cons .nil
            (fun e he => hp1 e (List.mem_cons_of_mem a he)) hp2)
        intro d hd
        rcases mergeWalkF_outs_names fh am as [] (by simp at hf ⊢; omega)
          (fun e he => hp1 e (List.mem_cons_of_mem a he)) hp2 d hd with ⟨e, he, hn⟩
        rcases he with he | he
        · show nameLe (Classification.deleted a.path).nameOf d.nameOf
          have : (Classification.deleted a.path).nameOf = a.file_name :=
            hp1 a (List.mem_cons_self a as)
          rw [this, hn]
          exact nameLe_of_lt ((List.pairwise_cons.mp hs1).1 e he)
        · simp at he
      | cons b bs =>
        rw [mergeWalkF_succ_cons_cons]
        have hp1t : ∀ e ∈ as, pathName e.path = e.file_name :=
          fun e he => hp1 e (List.mem_cons_of_mem a he)
        have hp2t : ∀ e ∈ bs, pathName e.path = e.file_name :=
          fun e he => hp2 e (List.mem_cons_of_mem b he)
        have hpa : pathName a.path = a.file_name := hp1 a (List.mem_cons_self a as)
        have hpb : pathName b.path = b.file_name := hp2 b (List.mem_cons_self b bs)
        rcases byteCmp_cases a.file_name b.file_name with hcc | hcc | hcc <;>
          rw [hcc] <;> dsimp only
        · -- a < b : Deleted a, then the rest, all of name ≥ a
          refine List.Pairwise.cons ?_
            (ih am as (b :: bs) (by simp at hf ⊢; omega) hs1.of_cons hs2 hp1t hp2)
          intro d hd
          rcases mergeWalkF_outs_names fh am as (b :: bs) (by simp at hf ⊢; omega)
            hp1t hp2 d hd with ⟨e, he, hn⟩
          show nameLe (Classification.deleted a.path).nameOf d.nameOf
          have hna : (Classification.deleted a.path).nameOf = a.file_name := hpa
          rw [hna, hn]
          rcases he with he | he
          · exact nameLe_of_lt ((List.pairwise_cons.mp hs1).1 e he)
          · exact nameLe_of_lt (lt_all hs2 hcc e he)
        · -- equal names
          have hname : a.file_name = b.file_name := (byteCmp_eq_iff _ _).mp hcc
          have hrec := ih am as bs (by simp at hf ⊢; omega) hs1.of_cons hs2.of_cons hp1t hp2t
          have hbound : ∀ d ∈ (mergeWalkF (fileResult am) am fh as bs).outs,
              nameLe a.file_name d.nameOf := by
            intro d hd
            rcases mergeWalkF_outs_names fh am as bs (by simp at hf ⊢; omega) hp1t hp2t d hd
              with ⟨e, he, hne⟩
            rw [hne]
            rcases he with he | he
            · exact nameLe_of_lt ((List.pairwise_cons.mp hs1).1 e he)
            · exact nameLe_of_lt (by
                rw [hname]
                exact (List.pairwise_cons.mp hs2).1 e he)
          split_ifs with h1 h2 h3 h4 h5
          · refine List.Pairwise.cons ?_ (List.Pairwise.cons ?_ hrec)
            · intro d hd
              rcases List.mem_cons.mp hd with rfl | hd
              · show nameLe (Classification.deleted a.path).nameOf
                  (Classification.added b.path).nameOf
                rw [show (Classification.deleted a.path).nameOf = a.file_name from hpa,
                  show (Classification.added b.path).nameOf = b.file_name from hpb]
                exact nameLe_of_eq hname
              · show nameLe (Classification.deleted a.path).nameOf d.nameOf
                rw [show (Classification.deleted a.path).nameOf = a.file_name from hpa]
                exact hbound d hd
            · intro d hd
              show nameLe (Classification.added b.path).nameOf d.nameOf
              rw [show (Classification.added b.path).nameOf = b.file_name from hpb, ← hname]
              exact hbound d hd
          · exact hrec
          · refine List.Pairwise.cons ?_ hrec
            intro d hd
            show nameLe (Classification.modified b.path).nameOf d.nameOf
            rw [show (Classification.modified b.path).nameOf = b.file_name from hpb, ← hname]
            exact hbound d hd
          · refine List.pairwise_append.mpr
              ⟨pairwise_of_length_le_one fileResult_length, hrec, ?_⟩
            intro c hcm d hd
            rw [show c.nameOf = pathName b.path from fileResult_nameOf hcm, hpb, ← hname]
            exact hbound d hd
          · exact hrec
          · exact hrec
        · -- a > b : Added b, then the rest, all of name ≥ b
          have hblt : byteCmp b.file_name a.file_name = .lt := (byteCmp_gt_iff_lt _ _).mp hcc
          refine List.Pairwise.cons ?_
            (ih am (a :: as) bs (by simp at hf ⊢; omega) hs1 hs2.of_cons hp1 hp2t)
          intro d hd
          rcases mergeWalkF_outs_names fh am (a :: as) bs (by simp at hf ⊢; omega)
            hp1 hp2t d hd with ⟨e, he, hne⟩
          show nameLe (Classification.added b.path).nameOf d.nameOf
          rw [show (Classification.added b.path).nameOf = b.file_name from hpb, hne]
          rcases he with he | he
          · exact nameLe_of_lt (lt_all hs1 hblt e he)
          · exact nameLe_of_lt ((List.pairwise_cons.mp hs2).1 e he)

theorem mergeWalk_outs_sorted {am : Bool} {l1 l2 : List EntryInfo}
    (hs1 : l1.Pairwise entryLt) (hs2 : l2.Pairwise entryLt)
    (hp1 : ∀ e ∈ l1, pathName e.path = e.file_name)
    (hp2 : ∀ e ∈ l2, pathName e.path = e.file_name) :
    (mergeWalk (fileResult am) am l1 l2).outs.Pairwise
      (fun c d => nameLe c.nameOf d.nameOf) :=
  mergeWalkF_outs_sorted _ am l1 l2 (by omega) hs1 hs2 hp1 hp2

/-! ### Sortedness of listings -/

theorem listNode_sorted {ex : List Name} {p : FPath} {n : FsNode} {l : List EntryInfo}
    (h : listNode ex p n = .ok l) : l.Pairwise entryLe := by
  cases n with
  | file c oe => simp [listNode] at h
  | dir es err =>
    cases err with
    | some m => simp [listNode] at h
    | none =>
      simp only [listNode, Except.ok.injEq] at h
      subst h
      exact List.sorted_insertionSort entryLe _

theorem listNode_sorted_strict {ex : List Name} {p : FPath} {n : FsNode} {l : List EntryInfo}
    (h : listNode ex p n = .ok l) (hnd : (l.map EntryInfo.file_name).Nodup) :
    l.Pairwise entryLt := by
  have hs := listNode_sorted h
  have hne : l.Pairwise (fun e1 e2 : EntryInfo => e1.file_name ≠ e2.file_name) :=
    List.pairwise_map.mp hnd
  refine hs.imp₂ ?_ hne
  intro e1 e2 hle hnene
  unfold entryLe at hle
  unfold entryLt
  rcases byteCmp_cases e1.file_name e2.file_name with hcc | hcc | hcc
  · exact hcc
  · exact absurd ((byteCmp_eq_iff _ _).mp hcc) hnene
  · exact absurd hcc hle

theorem listNode_paths {ex : List Name} {p : FPath} {n : FsNode} {l : List EntryInfo}
    (h : listNode ex p n = .ok l) : ∀ e ∈ l, pathName e.path = e.file_name := by
  intro e he
  rcases listNode_mem h he with ⟨es, err, -, -, hpath, -⟩
  rw [hpath, pathName_append]

theorem listNode_paths_nodup {ex : List Name} {p : FPath} {n : FsNode} {l : List EntryInfo}
    (h : listNode ex p n = .ok l) (hnd : (l.map EntryInfo.file_name).Nodup) :
    (l.map EntryInfo.path).Nodup := by
  have hmap : l.map EntryInfo.path = (l.map EntryInfo.file_name).map (fun nm => p ++ [nm]) := by
    rw [List.map_map]
    apply List.map_congr_left
    intro e he
    rcases listNode_mem h he with ⟨es, err, -, -, hpath, -⟩
    exact hpath
  rw [hmap]
  have hinj : Function.Injective (fun nm : Name => p ++ [nm]) := by
    intro n1 n2 hq
    simpa using hq
  exact List.Nodup.map hinj hnd

theorem matchedPairs_mem {l1 l2 : List EntryInfo} {x : EntryInfo × EntryInfo}
    (h : x ∈ matchedPairs l1 l2) :
    x.1 ∈ l1 ∧ findName l2 x.1.file_name = some x.2 := by
  induction l1 with
  | nil => simp [matchedPairs_nil_left] at h
  | cons a as ih =>
    rw [matchedPairs_cons] at h
    cases hfa : findName l2 a.file_name with
    | none =>
      rw [hfa] at h
      dsimp only at h
      have := ih h
      exact ⟨List.mem_cons_of_mem a this.1, this.2⟩
    | some b =>
      rw [hfa] at h
      dsimp only at h
      rcases List.mem_cons.mp h with rfl | h
      · exact ⟨List.mem_cons_self a as, hfa⟩
      · have := ih h
        exact ⟨List.mem_cons_of_mem a this.1, this.2⟩

theorem matchedPairs_pairwise {l1 l2 : List EntryInfo} (hs1 : l1.Pairwise entryLt) :
    (matchedPairs l1 l2).Pairwise (fun x y => entryLt x.1 y.1) := by
  induction l1 with
  | nil => exact .nil
  | cons a as ih =>
    rw [matchedPairs_cons]
    cases hfa : findName l2 a.file_name with
    | none => exact ih hs1.of_cons
    | some b =>
      dsimp only
      refine List.Pairwise.cons ?_ (ih hs1.of_cons)
      intro y hy
      exact (List.pairwise_cons.mp hs1).1 y.1 (matchedPairs_mem hy).1

theorem count_one_of_nodup {α : Type} [BEq α] [LawfulBEq α] {l : List α} {x : α}
    (hnd : l.Nodup) (hx : x ∈ l) : l.count x = 1 := by
  induction l with
  | nil => simp at hx
  | cons y t ih =>
    rcases List.mem_cons.mp hx with rfl | hxt
    · rw [List.count_cons, List.count_eq_zero.mpr (List.nodup_cons.mp hnd).1]
      simp
    · rw [List.count_cons, ih (List.nodup_cons.mp hnd).2 hxt]
      have hne : (y == x) = false := by
        refine beq_eq_false_iff_ne.mpr ?_
        rintro rfl
        exact (List.nodup_cons.mp hnd).1 hxt
      rw [hne]
      simp

/-- **C1**: for every directory pair, the engine sorts both listings by name
and merges them with two cursors: the output is the merge-pass events, then
the pending file-comparison results in name order, then each pending
subdirectory's full recursive output in name order; every name present only
on the left yields exactly one `Deleted`, every name present only on the
right yields exactly one `Added`, and the merge-pass events are emitted in
byte-wise lexicographic name order. -/
theorem c1_sorted_merge
    (ex : List Name) (am : Bool) (p1 p2 : FPath) (n1 n2 : FsNode)
    (l1 l2 : List EntryInfo)
    (h1 : listNode ex p1 n1 = .ok l1) (h2 : listNode ex p2 n2 = .ok l2)
    (hnd1 : (l1.map EntryInfo.file_name).Nodup) (hnd2 : (l2.map EntryInfo.file_name).Nodup) :
    l1.Pairwise entryLe ∧ l2.Pairwise entryLe ∧
    compareDirectories ex am p1 p2 n1 n2 =
      .ok ((mergeWalk (fileResult am) am l1 l2).outs
        ++ (mergeWalk (fileResult am) am l1 l2).files.flatMap
            (fun fp => fileResult am fp.1 fp.2)
        ++ (mergeWalk (fileResult am) am l1 l2).dirs.flatMap (childOut ex am)) ∧
    (∀ a ∈ l1, a.file_name ∉ l2.map EntryInfo.file_name →
      (deletedPaths (mergeWalk (fileResult am) am l1 l2).outs).count a.path = 1) ∧
    (∀ b ∈ l2, b.file_name ∉ l1.map EntryInfo.file_name →
      (addedPaths (mergeWalk (fileResult am) am l1 l2).outs).count b.path = 1) ∧
    (mergeWalk (fileResult am) am l1 l2).outs.Pairwise
      (fun c d => nameLe c.nameOf d.nameOf) ∧
    (mergeWalk (fileResult am) am l1 l2).files.Pairwise (fun x y => entryLt x.1 y.1) ∧
    (mergeWalk (fileResult am) am l1 l2).dirs.Pairwise (fun x y => entryLt x.1 y.1) := by
  have hs1 := listNode_sorted_strict h1 hnd1
  have hs2 := listNode_sorted_strict h2 hnd2
  have hp1 := listNode_paths h1
  have hp2 := listNode_paths h2
  obtain ⟨hdel, hadd⟩ := @mergeWalk_deleted_added am l1 l2 hs1 hs2
  obtain ⟨hdirs, hfiles, -⟩ := @mergeWalk_pending (fileResult am) am l1 l2 hs1 hs2
  refine ⟨listNode_sorted h1, listNode_sorted h2, compareDirectories_ok h1 h2, ?_, ?_, ?_, ?_, ?_⟩
  · intro a ha hnotin
    rw [hdel]
    have hfp : delPred l2 a = true := by
      unfold delPred
      rw [findName_eq_none (fun e he hne => hnotin (by
        rw [← hne]
        exact List.mem_map_of_mem EntryInfo.file_name he))]
    have hmem : a ∈ l1.filter (fun a => delPred l2 a) := List.mem_filter.mpr ⟨ha, hfp⟩
    have hsub : ((l1.filter (fun a => delPred l2 a)).map (fun e => e.path)).Sublist
        (l1.map (fun e => e.path)) := (List.filter_sublist l1).map _
    have hnodup : ((l1.filter (fun a => delPred l2 a)).map (fun e => e.path)).Nodup :=
      (listNode_paths_nodup h1 hnd1).sublist hsub
    exact count_one_of_nodup hnodup (List.mem_map_of_mem _ hmem)
  · intro b hb hnotin
    rw [hadd]
    have hfp : addPred l1 b = true := by
      unfold addPred
      rw [findName_eq_none (fun e he hne => hnotin (by
        rw [← hne]
        exact List.mem_map_of_mem EntryInfo.file_name he))]
    have hmem : b ∈ l2.filter (fun b => addPred l1 b) := List.mem_filter.mpr ⟨hb, hfp⟩
    have hsub : ((l2.filter (fun b => addPred l1 b)).map (fun e => e.path)).Sublist
        (l2.map (fun e => e.path)) := (List.filter_sublist l2).map _
    have hnodup : ((l2.filter (fun b => addPred l1 b)).map (fun e => e.path)).Nodup :=
      (listNode_paths_nodup h2 hnd2).sublist hsub
    exact count_one_of_nodup hnodup (List.mem_map_of_mem _ hmem)
  · exact mergeWalk_outs_sorted hs1 hs2 hp1 hp2
  · rw [hfiles]
    cases am
    · exact (matchedPairs_pairwise hs1).filter _
    · exact .nil
  · rw [hdirs]
    exact (matchedPairs_pairwise hs1).filter _

/-! ### Characterization of the merge pass: one matched pair's contribution -/

theorem mem_head_of_name_eq {b' b : EntryInfo} {bs : List EntryInfo}
    (hs : (b' :: bs).Pairwise entryLt) (hb : b ∈ b' :: bs)
    (hn : b.file_name = b'.file_name) : b = b' := by
  rcases List.mem_cons.mp hb with rfl | hb
  · rfl
  · exact absurd hn.symm (entryLt_ne ((List.pairwise_cons.mp hs).1 b hb))

theorem mergeWalkF_pair_between :
    ∀ (f : Nat) (am : Bool) (l1 l2 : List EntryInfo),
    l1.length + l2.length < f → l1.Pairwise entryLt → l2.Pairwise entryLt →
    ∀ a ∈ l1, ∀ b ∈ l2, a.file_name = b.file_name →
    ∃ pre post,
      (mergeWalkF (fileResult am) am f l1 l2).outs = pre ++ pairOut am a b ++ post := by
  intro f
  induction f with
  | zero => intro am l1 l2 hf; omega
  | succ fh ih =>
    intro am l1 l2 hf hs1 hs2 a ha b hb hn
    cases l1 with
    | nil => simp at ha
    | cons a2 as =>
      cases l2 with
      | nil => simp at hb
      | cons b2 bs =>
        rw [mergeWalkF_succ_cons_cons]
        rcases byteCmp_cases a2.file_name b2.file_name with hcc | hcc | hcc <;>
          rw [hcc] <;> dsimp only
        · -- a2 < b2 : a2 cannot be the matched left entry
          have ha2 : a ∈ as := by
            rcases List.mem_cons.mp ha with rfl | h
            · exfalso
              have hlt : byteCmp a.file_name b.file_name = .lt := by
                rcases List.mem_cons.mp hb with rfl | h2
                · exact hcc
                · exact byteCmp_lt_trans hcc ((List.pairwise_cons.mp hs2).1 b h2)
              exact byteCmp_ne_of_lt hlt hn
            · exact h
          obtain ⟨pre, post, hsplit⟩ :=
            ih am as (b2 :: bs) (by simp at hf ⊢; omega) hs1.of_cons hs2 a ha2 b hb hn
          exact ⟨.deleted a2.path :: pre, post, by rw [hsplit]; rfl⟩
        · -- equal heads
          have hn2 : a2.file_name = b2.file_name := (byteCmp_eq_iff _ _).mp hcc
          rcases List.mem_cons.mp ha with rfl | hat
          · -- the matched pair is the two heads
            have hbb : b = b2 :=
              mem_head_of_name_eq hs2 hb (by rw [← hn, hn2])
            subst hbb
            refine ⟨[], (mergeWalkF (fileResult am) am fh as bs).outs, ?_⟩
            unfold pairOut
            split_ifs with h1 h2 h3 h4 h5 <;> rfl
          · -- the matched pair sits in the tails
            have hbt : b ∈ bs := by
              rcases List.mem_cons.mp hb with rfl | h2
              · exfalso
                have : entryLt a2 a := (List.pairwise_cons.mp hs1).1 a hat
                exact entryLt_ne this (by rw [hn, ← hn2])
              · exact h2
            obtain ⟨pre, post, hsplit⟩ :=
              ih am as bs (by simp at hf ⊢; omega) hs1.of_cons hs2.of_cons a hat b hbt hn
            split_ifs with h1 h2 h3 h4 h5
            · exact ⟨.deleted a2.path :: .added b2.path :: pre, post, by rw [hsplit]; rfl⟩
            · exact ⟨pre, post, hsplit⟩
            · exact ⟨.modified b2.path :: pre, post, by rw [hsplit]; rfl⟩
            · exact ⟨fileResult am a2 b2 ++ pre, post, by rw [hsplit]; simp⟩
            · exact ⟨pre, post, hsplit⟩
            · exact ⟨pre, post, hsplit⟩
        · -- a2 > b2 : b2 cannot be the matched right entry
          have hb2 : b ∈ bs := by
            rcases List.mem_cons.mp hb with rfl | h
            · exfalso
              have hblt : byteCmp b.file_name a2.file_name = .lt := (byteCmp_gt_iff_lt _ _).mp hcc
              have hlt : byteCmp b.file_name a.file_name = .lt := by
                rcases List.mem_cons.mp ha with rfl | h2
                · exact hblt
                · exact byteCmp_lt_trans hblt ((List.pairwise_cons.mp hs1).1 a h2)
              exact byteCmp_ne_of_lt hlt hn.symm
            · exact h
          obtain ⟨pre, post, hsplit⟩ :=
            ih am (a2 :: as) bs (by simp at hf ⊢; omega) hs1 hs2.of_cons a ha b hb2 hn
          exact ⟨.added b2.path :: pre, post, by rw [hsplit]; rfl⟩

theorem mergeWalk_pair_between {am : Bool} {l1 l2 : List EntryInfo}
    (hs1 : l1.Pairwise entryLt) (hs2 : l2.Pairwise entryLt)
    {a b : EntryInfo} (ha : a ∈ l1) (hb : b ∈ l2) (hn : a.file_name = b.file_name) :
    ∃ pre post,
      (mergeWalk (fileResult am) am l1 l2).outs = pre ++ pairOut am a b ++ post :=
  mergeWalkF_pair_between _ am l1 l2 (by omega) hs1 hs2 a ha b hb hn

/-! ### Characterization of the merge pass: per-name event counts -/

theorem findName_mem_sorted {l : List EntryInfo} (hs : l.Pairwise entryLt) {b : EntryInfo}
    (hb : b ∈ l) : findName l b.file_name = some b := by
  induction l with
  | nil => simp at hb
  | cons b2 bs ih =>
    rcases List.mem_cons.mp hb with rfl | hb
    · rw [findName_cons, if_pos rfl]
    · rw [findName_cons, if_neg (entryLt_ne ((List.pairwise_cons.mp hs).1 b hb)),
        ih hs.of_cons hb]

theorem expectedCount_skip_left {am : Bool} {a : EntryInfo} {as l2 : List EntryInfo} {n : Name}
    (hne : a.file_name ≠ n) :
    expectedCount am (a :: as) l2 n = expectedCount am as l2 n := by
  unfold expectedCount
  rw [findName_cons, if_neg hne]

theorem expectedCount_skip_right {am : Bool} {b : EntryInfo} {l1 bs : List EntryInfo} {n : Name}
    (hne : b.file_name ≠ n) :
    expectedCount am l1 (b :: bs) n = expectedCount am l1 bs n := by
  unfold expectedCount
  rw [findName_cons, if_neg hne]

theorem expectedCount_none_none {am : Bool} {l1 l2 : List EntryInfo} {n : Name}
    (h1 : findName l1 n = none) (h2 : findName l2 n = none) :
    expectedCount am l1 l2 n = 0 := by
  unfold expectedCount
  rw [h1, h2]

theorem expectedCount_some_none {am : Bool} {l1 l2 : List EntryInfo} {n : Name} {a : EntryInfo}
    (h1 : findName l1 n = some a) (h2 : findName l2 n = none) :
    expectedCount am l1 l2 n = 1 := by
  unfold expectedCount
  rw [h1, h2]

theorem expectedCount_none_some {am : Bool} {l1 l2 : List EntryInfo} {n : Name} {b : EntryInfo}
    (h1 : findName l1 n = none) (h2 : findName l2 n = some b) :
    expectedCount am l1 l2 n = 1 := by
  unfold expectedCount
  rw [h1, h2]

theorem expectedCount_some_some {am : Bool} {l1 l2 : List EntryInfo} {n : Name} {a b : EntryInfo}
    (h1 : findName l1 n = some a) (h2 : findName l2 n = some b) :
    expectedCount am l1 l2 n =
      (if a.is_dir != b.is_dir then 2
      else if a.is_dir then 0
      else if a.len ≠ b.len then 1
      else if a.len = 0 then 0
      else (fileResult am a b).length) := by
  unfold expectedCount
  rw [h1, h2]

theorem countP_fileResult {am : Bool} {a b : EntryInfo} {n : Name}
    (hpb : pathName b.path = b.file_name) :
    (fileResult am a b).countP (fun c => c.nameOf == n)
      = if b.file_name = n then (fileResult am a b).length else 0 := by
  rcases eq_or_ne b.file_name n with he | he
  · rw [if_pos he]
    apply List.countP_eq_length.mpr
    intro c hc
    have := fileResult_nameOf hc
    simp only [this, hpb, he, beq_self_eq_true]
  · rw [if_neg he]
    apply List.countP_eq_zero.mpr
    intro c hc
    have := fileResult_nameOf hc
    simp only [this, hpb]
    simpa using he

theorem mergeWalkF_count :
    ∀ (f : Nat) (am : Bool) (l1 l2 : List EntryInfo),
    l1.length + l2.length < f → l1.Pairwise entryLt → l2.Pairwise entryLt →
    (∀ e ∈ l1, pathName e.path = e.file_name) → (∀ e ∈ l2, pathName e.path = e.file_name) →
    ∀ n : Name,
      (mergeWalkF (fileResult am) am f l1 l2).outs.countP (fun c => c.nameOf == n)
        + ((mergeWalkF (fileResult am) am f l1 l2).files.flatMap
            (fun fp => fileResult am fp.1 fp.2)).countP (fun c => c.nameOf == n)
      = expectedCount am l1 l2 n := by
  intro f
  induction f with
  | zero => intro am l1 l2 hf; omega
  | succ fh ih =>
    intro am l1 l2 hf hs1 hs2 hp1 hp2 n
    cases l1 with
    | nil =>
      cases l2 with
      | nil =>
        rw [mergeWalkF_succ_nil_nil]
        rw [expectedCount_none_none (findName_nil n) (findName_nil n)]
        rfl
      | cons b bs =>
        rw [mergeWalkF_succ_nil_cons]
        dsimp only
        have hp2t : ∀ e ∈ bs, pathName e.path = e.file_name :=
          fun e he => hp2 e (List.mem_cons_of_mem b he)
        have hpb : (Classification.added b.path).nameOf = b.file_name :=
          hp2 b (List.mem_cons_self b bs)
        have hrec := ih am [] bs (by simp at hf ⊢; omega) .nil hs2.of_cons hp1 hp2t n
        rcases eq_or_ne b.file_name n with hbn | hbn
        · rw [List.countP_cons_of_pos _ _ (by rw [hpb, hbn]; exact beq_self_eq_true n)]
          rw [expectedCount_none_some (findName_nil n) (by rw [findName_cons, if_pos hbn])]
          have hz : expectedCount am [] bs n = 0 :=
            expectedCount_none_none (findName_nil n) (hbn ▸ findName_head_none hs2)
          omega
        · rw [List.countP_cons_of_neg _ _ (by rw [hpb]; simpa using hbn)]
          rw [expectedCount_skip_right hbn]
          exact hrec
    | cons a as =>
      cases l2 with
      | nil =>
        rw [mergeWalkF_succ_cons_nil]
        dsimp only
        have hp1t : ∀ e ∈ as, pathName e.path = e.file_name :=
          fun e he => hp1 e (List.mem_cons_of_mem a he)
        have hpa : (Classification.deleted a.path).nameOf = a.file_name :=
          hp1 a (List.mem_cons_self a as)
        have hrec := ih am as [] (by simp at hf ⊢; omega) hs1.of_cons .nil hp1t hp2 n
        rcases eq_or_ne a.file_name n with han | han
        · rw [List.countP_cons_of_pos _ _ (by rw [hpa, han]; exact beq_self_eq_true n)]
          rw [expectedCount_some_none (by rw [findName_cons, if_pos han]) (findName_nil n)]
          have hz : expectedCount am as [] n = 0 :=
            expectedCount_none_none (han ▸ findName_head_none hs1) (findName_nil n)
          omega
        · rw [List.countP_cons_of_neg _ _ (by rw [hpa]; simpa using han)]
          rw [expectedCount_skip_left han]
          exact hrec
      | cons b bs =>
        rw [mergeWalkF_succ_cons_cons]
        have hp1t : ∀ e ∈ as, pathName e.path = e.file_name :=
          fun e he => hp1 e (List.mem_cons_of_mem a he)
        have hp2t : ∀ e ∈ bs, pathName e.path = e.file_name :=
          fun e he => hp2 e (List.mem_cons_of_mem b he)
        have hpa : (Classification.deleted a.path).nameOf = a.file_name :=
          hp1 a (List.mem_cons_self a as)
        have hpb : (Classification.added b.path).nameOf = b.file_name :=
          hp2 b (List.mem_cons_self b bs)
        have hpbM : (Classification.modified b.path).nameOf = b.file_name :=
          hp2 b (List.mem_cons_self b bs)
        rcases byteCmp_cases a.file_name b.file_name with hcc | hcc | hcc <;>
          rw [hcc] <;> dsimp only
        · -- a < b
          have hrec := ih am as (b :: bs) (by simp at hf ⊢; omega) hs1.of_cons hs2 hp1t hp2 n
          rcases eq_or_ne a.file_name n with han | han
          · rw [List.countP_cons_of_pos _ _ (by rw [hpa, han]; exact beq_self_eq_true n)]
            rw [expectedCount_some_none (by rw [findName_cons, if_pos han])
              (han ▸ findName_none_of_lt hs2 hcc)]
            have hz : expectedCount am as (b :: bs) n = 0 :=
              expectedCount_none_none (han ▸ findName_head_none hs1)
                (han ▸ findName_none_of_lt hs2 hcc)
            omega
          · rw [List.countP_cons_of_neg _ _ (by rw [hpa]; simpa using han)]
            rw [expectedCount_skip_left han]
            exact hrec
        · -- equal names
          have hn2 : a.file_name = b.file_name := (byteCmp_eq_iff _ _).mp hcc
          have hrec := ih am as bs (by simp at hf ⊢; omega) hs1.of_cons hs2.of_cons hp1t hp2t n
          rcases eq_or_ne a.file_name n with han | han
          · -- the name under scrutiny is the matched name
            have hbn : b.file_name = n := hn2 ▸ han
            have hz : expectedCount am as bs n = 0 :=
              expectedCount_none_none (han ▸ findName_head_none hs1)
                (hbn ▸ findName_head_none hs2)
            rw [expectedCount_some_some (by rw [findName_cons, if_pos han])
              (by rw [findName_cons, if_pos hbn])]
            rw [hz] at hrec
            have hfr := @countP_fileResult am a b n (hp2 b (List.mem_cons_self b bs))
            rw [if_pos hbn] at hfr
            by_cases h1 : a.is_dir ≠ b.is_dir
            · rw [if_pos h1, if_pos (bne_iff_ne.mpr h1)]
              dsimp only
              rw [List.countP_cons_of_pos _ _ (by rw [hpa, han]; exact beq_self_eq_true n)]
              rw [List.countP_cons_of_pos _ _ (by rw [hpb, hbn]; exact beq_self_eq_true n)]
              omega
            · have hbneP : ¬ ((a.is_dir != b.is_dir) = true) := by
                simpa using not_not.mp h1
              rw [if_neg h1, if_neg hbneP]
              by_cases h2 : a.is_dir = true
              · rw [if_pos h2, if_pos h2]
                dsimp only
                exact hrec
              · rw [if_neg h2, if_neg h2]
                by_cases h3 : a.len ≠ b.len
                · rw [if_pos h3, if_pos h3]
                  dsimp only
                  rw [List.countP_cons_of_pos _ _ (by rw [hpbM, hbn]; exact beq_self_eq_true n)]
                  omega
                · rw [if_neg h3, if_neg h3]
                  have hlen : a.len = b.len := not_not.mp h3
                  by_cases h4 : 0 < a.len
                  · rw [if_pos h4, if_neg (show ¬ (a.len = 0) by omega)]
                    by_cases ham : am = true
                    · rw [if_pos ham]
                      dsimp only
                      rw [List.countP_append, hfr]
                      omega
                    · rw [if_neg ham]
                      dsimp only
                      rw [List.flatMap_cons, List.countP_append, hfr]
                      omega
                  · rw [if_neg h4, if_pos (show a.len = 0 by omega)]
                    exact hrec
          · -- an unrelated name: nothing at this step mentions it
            have hbn : b.file_name ≠ n := hn2 ▸ han
            rw [expectedCount_skip_left han, expectedCount_skip_right hbn]
            by_cases h1 : a.is_dir ≠ b.is_dir
            · rw [if_pos h1]
              dsimp only
              rw [List.countP_cons_of_neg _ _ (by rw [hpa]; simpa using han)]
              rw [List.countP_cons_of_neg _ _ (by rw [hpb]; simpa using hbn)]
              exact hrec
            · rw [if_neg h1]
              by_cases h2 : a.is_dir = true
              · rw [if_pos h2]
                dsimp only
                exact hrec
              · rw [if_neg h2]
                by_cases h3 : a.len ≠ b.len
                · rw [if_pos h3]
                  dsimp only
                  rw [List.countP_cons_of_neg _ _ (by rw [hpbM]; simpa using hbn)]
                  exact hrec
                · rw [if_neg h3]
                  by_cases h4 : 0 < a.len
                  · rw [if_pos h4]
                    have hfr := @countP_fileResult am a b n (hp2 b (List.mem_cons_self b bs))
                    rw [if_neg hbn] at hfr
                    by_cases ham : am = true
                    · rw [if_pos ham]
                      dsimp only
                      rw [List.countP_append, hfr]
                      omega
                    · rw [if_neg ham]
                      dsimp only
                      rw [List.flatMap_cons, List.countP_append, hfr]
                      omega
                  · rw [if_neg h4]
                    exact hrec
        · -- a > b
          have hrec := ih am (a :: as) bs (by simp at hf ⊢; omega) hs1 hs2.of_cons hp1 hp2t n
          have hblt : byteCmp b.file_name a.file_name = .lt := (byteCmp_gt_iff_lt _ _).mp hcc
          rcases eq_or_ne b.file_name n with hbn | hbn
          · rw [List.countP_cons_of_pos _ _ (by rw [hpb, hbn]; exact beq_self_eq_true n)]
            have hleftnone : findName (a :: as) n = none := by
              apply findName_eq_none
              intro e he hne
              have hlt := lt_all hs1 hblt e he
              rw [hne, ← hbn, byteCmp_self] at hlt
              simp at hlt
            rw [expectedCount_none_some hleftnone (by rw [findName_cons, if_pos hbn])]
            have hz : expectedCount am (a :: as) bs n = 0 :=
              expectedCount_none_none hleftnone (hbn ▸ findName_head_none hs2)
            omega
          · rw [List.countP_cons_of_neg _ _ (by rw [hpb]; simpa using hbn)]
            rw [expectedCount_skip_right hbn]
            exact hrec

theorem mergeWalk_count {am : Bool} {l1 l2 : List EntryInfo}
    (hs1 : l1.Pairwise entryLt) (hs2 : l2.Pairwise entryLt)
    (hp1 : ∀ e ∈ l1, pathName e.path = e.file_name)
    (hp2 : ∀ e ∈ l2, pathName e.path = e.file_name) (n : Name) :
    (levelOut am l1 l2).countP (fun c => c.nameOf == n) = expectedCount am l1 l2 n := by
  unfold levelOut mergeWalk
  rw [List.countP_append]
  exact mergeWalkF_count _ am l1 l2 (by omega) hs1 hs2 hp1 hp2 n

theorem c1_sorted_merge_witness :
    listNode [] [[1]]
        (.dir (.cons [120] (.file [5] none) (.cons [121] (.file [] none) .nil)) none)
      = .ok [⟨[[1], [120]], [120], false, 1, .file [5] none⟩,
             ⟨[[1], [121]], [121], false, 0, .file [] none⟩] ∧
    ([⟨[[1], [120]], [120], false, 1, .file [5] none⟩,
      ⟨[[1], [121]], [121], false, 0, .file [] none⟩] : List EntryInfo).Pairwise entryLe :=
  ⟨rfl,
    (c1_sorted_merge [] false [[1]] [[2]]
      (.dir (.cons [120] (.file [5] none) (.cons [121] (.file [] none) .nil)) none)
      (.dir (.cons [120] (.file [6] none) .nil) none)
      [⟨[[1], [120]], [120], false, 1, .file [5] none⟩,
       ⟨[[1], [121]], [121], false, 0, .file [] none⟩]
      [⟨[[2], [120]], [120], false, 1, .file [6] none⟩]
      rfl rfl (by decide) (by decide)).1⟩

/-- **C3** counterexample: for a name that is a directory on the left and a
regular file on the right, the program reports a `Deleted` event and an
`Added` event (two classifications), not a single `TypeMismatch`
classification as the claim states. -/
theorem c3_counterexample :
    compareDirectories [] false [[1]] [[2]]
        (.dir (.cons [110] (.dir .nil none) .nil) none)
        (.dir (.cons [110] (.file [7] none) .nil) none)
      = .ok [.deleted [[1], [110]], .added [[2], [110]]] ∧
    ([Classification.deleted [[1], [110]], .added [[2], [110]]] : List Classification).length
      = 2 := by
  constructor
  · decide
  · rfl

/-- **C3** (amended): for a matched name whose two entries have differing
is-directory flags, the merge pass reports a `Deleted` event for the left
path immediately followed by an `Added` event for the right path, and it
schedules neither a recursion nor a file comparison for that pair (in
particular it does not recurse into the directory side). -/
theorem c3_type_mismatch_pair (am : Bool) (l1 l2 : List EntryInfo)
    (hs1 : l1.Pairwise entryLt) (hs2 : l2.Pairwise entryLt)
    (a b : EntryInfo) (ha : a ∈ l1) (hb : b ∈ l2) (hn : a.file_name = b.file_name)
    (hd : a.is_dir ≠ b.is_dir) :
    (∃ pre post, (mergeWalk (fileResult am) am l1 l2).outs
        = pre ++ [.deleted a.path, .added b.path] ++ post) ∧
    (∀ dp ∈ (mergeWalk (fileResult am) am l1 l2).dirs, dp.1 ≠ a) ∧
    (∀ fp ∈ (mergeWalk (fileResult am) am l1 l2).files, fp.1 ≠ a) := by
  obtain ⟨pre, post, hsplit⟩ := @mergeWalk_pair_between am l1 l2 hs1 hs2 a b ha hb hn
  obtain ⟨hdirs, hfiles, -⟩ := @mergeWalk_pending (fileResult am) am l1 l2 hs1 hs2
  refine ⟨⟨pre, post, by rw [hsplit]; unfold pairOut; rw [if_pos hd]⟩, ?_, ?_⟩
  · intro dp hdp heq
    rw [hdirs] at hdp
    rcases List.mem_filter.mp hdp with ⟨hm, hcond⟩
    obtain ⟨-, hfound⟩ := matchedPairs_mem hm
    rw [heq, hn, findName_mem_sorted hs2 hb] at hfound
    injection hfound with hfound
    rw [heq, ← hfound] at hcond
    simp only [Bool.and_eq_true] at hcond
    exact hd (hcond.1.trans hcond.2.symm)
  · intro fp hfp heq
    rw [hfiles] at hfp
    cases am
    · simp only [Bool.false_eq_true, if_false] at hfp
      rcases List.mem_filter.mp hfp with ⟨hm, hcond⟩
      obtain ⟨-, hfound⟩ := matchedPairs_mem hm
      rw [heq, hn, findName_mem_sorted hs2 hb] at hfound
      injection hfound with hfound
      rw [heq, ← hfound] at hcond
      simp only [Bool.and_eq_true, Bool.not_eq_true'] at hcond
      exact hd (hcond.1.1.1.trans hcond.1.1.2.symm)
    · simp at hfp

theorem c3_type_mismatch_pair_witness :
    (⟨[[1], [110]], [110], true, 0, .dir .nil none⟩ : EntryInfo).file_name
        = (⟨[[2], [110]], [110], false, 1, .file [7] none⟩ : EntryInfo).file_name ∧
    (∃ pre post,
      (mergeWalk (fileResult false) false
          [⟨[[1], [110]], [110], true, 0, .dir .nil none⟩]
          [⟨[[2], [110]], [110], false, 1, .file [7] none⟩]).outs
        = pre ++ [.deleted [[1], [110]], .added [[2], [110]]] ++ post) :=
  ⟨rfl,
    (c3_type_mismatch_pair false
      [⟨[[1], [110]], [110], true, 0, .dir .nil none⟩]
      [⟨[[2], [110]], [110], false, 1, .file [7] none⟩]
      (List.pairwise_singleton _ _) (List.pairwise_singleton _ _)
      _ _ (List.mem_cons_self _ _) (List.mem_cons_self _ _) rfl
      (by decide)).1⟩

/-- **C4** counterexample: two directories each holding the same empty file,
compared in `--all` mode, produce no classification at all — in particular no
`Unchanged` event is emitted for the zero-length pair. -/
theorem c4_counterexample :
    compareDirectories [] true [[1]] [[2]]
        (.dir (.cons [97] (.file [] none) .nil) none)
        (.dir (.cons [97] (.file [] none) .nil) none)
      = .ok [] := by
  decide

/-- **C4** (amended): a matched pair of same-named empty regular files
produces no classification whatsoever for its name (not even `Unchanged` in
`--all` mode): its per-name event count at the level is zero, and the pair is
neither queued for comparison nor compared inline, so no content is read. -/
theorem c4_zero_length_pair (am : Bool) (l1 l2 : List EntryInfo)
    (hs1 : l1.Pairwise entryLt) (hs2 : l2.Pairwise entryLt)
    (hp1 : ∀ e ∈ l1, pathName e.path = e.file_name)
    (hp2 : ∀ e ∈ l2, pathName e.path = e.file_name)
    (a b : EntryInfo) (ha : a ∈ l1) (hb : b ∈ l2) (hn : a.file_name = b.file_name)
    (hfa : a.is_dir = false) (hfb : b.is_dir = false)
    (hza : a.len = 0) (hzb : b.len = 0) :
    (levelOut am l1 l2).countP (fun c => c.nameOf == a.file_name) = 0 ∧
    (∀ fp ∈ (mergeWalk (fileResult am) am l1 l2).files, fp.1 ≠ a) ∧
    (∀ ip ∈ (mergeWalk (fileResult am) am l1 l2).invoked, ip.1 ≠ a) := by
  obtain ⟨-, hfiles, hinv⟩ := @mergeWalk_pending (fileResult am) am l1 l2 hs1 hs2
  have hnotin : ∀ fp : EntryInfo × EntryInfo, fp ∈ filePairs l1 l2 → fp.1 ≠ a := by
    intro fp hfp heq
    rcases List.mem_filter.mp hfp with ⟨-, hcond⟩
    simp only [Bool.and_eq_true, decide_eq_true_eq] at hcond
    rw [heq] at hcond
    omega
  refine ⟨?_, ?_, ?_⟩
  · rw [mergeWalk_count hs1 hs2 hp1 hp2]
    rw [expectedCount_some_some (findName_mem_sorted hs1 ha)
      (by rw [hn, findName_mem_sorted hs2 hb])]
    rw [if_neg (by rw [hfa, hfb]; simp), if_neg (by rw [hfa]; simp),
      if_neg (by omega), if_pos hza]
  · intro fp hfp
    rw [hfiles] at hfp
    cases am
    · simp only [Bool.false_eq_true, if_false] at hfp
      exact hnotin fp hfp
    · simp at hfp
  · intro ip hip
    rw [hinv] at hip
    cases am
    · simp at hip
    · simp only [if_pos rfl] at hip
      exact hnotin ip hip

theorem c4_zero_length_pair_witness :
    (⟨[[1], [97]], [97], false, 0, .file [] none⟩ : EntryInfo).len = 0 ∧
    (levelOut true
        [⟨[[1], [97]], [97], false, 0, .file [] none⟩]
        [⟨[[2], [97]], [97], false, 0, .file [] none⟩]).countP
      (fun c => c.nameOf == [97]) = 0 :=
  ⟨rfl,
    (c4_zero_length_pair true
      [⟨[[1], [97]], [97], false, 0, .file [] none⟩]
      [⟨[[2], [97]], [97], false, 0, .file [] none⟩]
      (List.pairwise_singleton _ _) (List.pairwise_singleton _ _)
      (by intro e he; rw [List.mem_singleton] at he; rw [he]; rfl)
      (by intro e he; rw [List.mem_singleton] at he; rw [he]; rfl)
      _ _ (List.mem_cons_self _ _) (List.mem_cons_self _ _) rfl rfl rfl rfl rfl).1⟩

/-- **C5**: a matched pair of regular files with differing lengths is
classified `Modified` by the merge pass itself, and the content comparison is
never invoked for it: whatever the inline comparator, every pair that is
queued for comparison or compared inline has equal positive lengths, and in
particular is never this pair. -/
theorem c5_size_short_circuit (cmp : EntryInfo → EntryInfo → List Classification)
    (am : Bool) (l1 l2 : List EntryInfo)
    (hs1 : l1.Pairwise entryLt) (hs2 : l2.Pairwise entryLt)
    (a b : EntryInfo) (ha : a ∈ l1) (hb : b ∈ l2) (hn : a.file_name = b.file_name)
    (hfa : a.is_dir = false) (hfb : b.is_dir = false) (hlen : a.len ≠ b.len) :
    (∃ pre post, (mergeWalk (fileResult am) am l1 l2).outs
        = pre ++ [.modified b.path] ++ post) ∧
    (∀ p ∈ (mergeWalk cmp am l1 l2).files ++ (mergeWalk cmp am l1 l2).invoked,
        p.1.len = p.2.len ∧ 0 < p.1.len) ∧
    (∀ p ∈ (mergeWalk cmp am l1 l2).files ++ (mergeWalk cmp am l1 l2).invoked, p.1 ≠ a) := by
  obtain ⟨pre, post, hsplit⟩ := @mergeWalk_pair_between am l1 l2 hs1 hs2 a b ha hb hn
  obtain ⟨-, hfiles, hinv⟩ := @mergeWalk_pending cmp am l1 l2 hs1 hs2
  have hmemf : ∀ p : EntryInfo × EntryInfo,
      p ∈ (mergeWalk cmp am l1 l2).files ++ (mergeWalk cmp am l1 l2).invoked →
      p ∈ filePairs l1 l2 := by
    intro p hp
    rw [hfiles, hinv] at hp
    cases am
    · simp only [Bool.false_eq_true, if_false] at hp
      simpa using hp
    · simp only [if_pos rfl] at hp
      simpa using hp
  refine ⟨⟨pre, post, ?_⟩, ?_, ?_⟩
  · rw [hsplit]
    unfold pairOut
    rw [if_neg (by rw [hfa, hfb]; simp), if_neg (by rw [hfa]; simp), if_pos hlen]
  · intro p hp
    rcases List.mem_filter.mp (hmemf p hp) with ⟨-, hcond⟩
    simp only [Bool.and_eq_true, beq_iff_eq, decide_eq_true_eq] at hcond
    exact ⟨hcond.1.2, hcond.2⟩
  · intro p hp heq
    rcases List.mem_filter.mp (hmemf p hp) with ⟨hm, hcond⟩
    obtain ⟨-, hfound⟩ := matchedPairs_mem hm
    rw [heq, hn, findName_mem_sorted hs2 hb] at hfound
    injection hfound with hfound
    simp only [Bool.and_eq_true, beq_iff_eq, decide_eq_true_eq] at hcond
    rw [heq, ← hfound] at hcond
    exact hlen hcond.1.2

theorem c5_size_short_circuit_witness :
    (⟨[[1], [99]], [99], false, 1, .file [3] none⟩ : EntryInfo).len
        ≠ (⟨[[2], [99]], [99], false, 2, .file [3, 4] none⟩ : EntryInfo).len ∧
    (∃ pre post,
      (mergeWalk (fileResult false) false
          [⟨[[1], [99]], [99], false, 1, .file [3] none⟩]
          [⟨[[2], [99]], [99], false, 2, .file [3, 4] none⟩]).outs
        = pre ++ [.modified [[2], [99]]] ++ post) :=
  ⟨by decide,
    (c5_size_short_circuit (fileResult false) false
      [⟨[[1], [99]], [99], false, 1, .file [3] none⟩]
      [⟨[[2], [99]], [99], false, 2, .file [3, 4] none⟩]
      (List.pairwise_singleton _ _) (List.pairwise_singleton _ _)
      _ _ (List.mem_cons_self _ _) (List.mem_cons_self _ _) rfl rfl rfl (by decide)).1⟩

/-- **C8** counterexample: a run over two directories that differ (one
`Deleted` and one `Added` classification occur) still exits with code 0 —
the exit code is not derived from the classification stream. -/
theorem c8_counterexample :
    runMain
        (fun s => if s = "a" then some (.dir (.cons [120] (.file [5] none) .nil) none)
                  else if s = "b" then some (.dir (.cons [121] (.file [6] none) .nil) none)
                  else none)
        ["a", "b"]
      = (0, [.deleted [[97], [120]], .added [[98], [121]]]) ∧
    ([Classification.deleted [[97], [120]], .added [[98], [121]]] : List Classification)
      ≠ [] := by
  refine ⟨by decide, by simp⟩

/-- **C8** (amended): the exit code never reflects the classification stream:
every run that completes exits with code 0, whether or not any
Added/Deleted/Modified/ComparisonError classification occurred, and every
failing run (argument error, missing or unresolvable operand, non-directory
operand, or top-level listing failure) exits with code 1 having emitted no
classifications; no other exit code exists.  In particular an unknown flag
makes the run fail with code 1. -/
theorem c8_exit_code (lookup : String → Option FsNode) (args : List String) :
    ((runMain lookup args).1 = 0 ∨
      ((runMain lookup args).1 = 1 ∧ (runMain lookup args).2 = [])) ∧
    runMain lookup ("--bogus" :: args) = (1, []) := by
  constructor
  · unfold runMain
    repeat' split
    all_goals simp
  · unfold runMain
    rw [show parseLoop ("--bogus" :: args) false false none none []
        = .error ("Unknown flag: " ++ "--bogus") by
      unfold parseLoop
      rw [if_neg (by decide), if_neg (by decide), if_neg (by decide), if_neg (by decide)]]

/-- **C9** counterexample: an entry observed in both listings (a zero-length
file on each side) produces no classification at all, even in `--all` mode —
the entry is silently dropped from the output. -/
theorem c9_counterexample :
    compareDirectories [] true [[1]] [[2]]
        (.dir (.cons [98] (.file [] none) .nil) none)
        (.dir (.cons [98] (.file [] none) .nil) none)
      = .ok [] ∧
    listNode [] [[1]] (.dir (.cons [98] (.file [] none) .nil) none)
      = .ok [⟨[[1], [98]], [98], false, 0, .file [] none⟩] :=
  ⟨by decide, rfl⟩

/-- **C9** (amended): within one directory level the number of
classifications emitted for a name is exactly what the resolution rules
prescribe — one for a one-sided name, two for a matched pair with differing
is-directory flags, zero for a matched directory pair (which is instead
queued for exactly one recursion), one for a matched file pair of differing
lengths, and for an equal-length file pair the length of its comparison
result, which is zero for a zero-length pair and zero for an identical pair
outside `--all` mode.  Entries in the two latter cases are therefore
silently dropped, contradicting the original exactly-one-classification
claim. -/
theorem c9_no_entry_dropped (am : Bool) (l1 l2 : List EntryInfo)
    (hs1 : l1.Pairwise entryLt) (hs2 : l2.Pairwise entryLt)
    (hp1 : ∀ e ∈ l1, pathName e.path = e.file_name)
    (hp2 : ∀ e ∈ l2, pathName e.path = e.file_name)
    (n : Name) :
    (levelOut am l1 l2).countP (fun c => c.nameOf == n) = expectedCount am l1 l2 n ∧
    (mergeWalk (fileResult am) am l1 l2).dirs = dirPairs l1 l2 :=
  ⟨mergeWalk_count hs1 hs2 hp1 hp2 n, (mergeWalk_pending hs1 hs2).1⟩

theorem c9_no_entry_dropped_witness :
    (levelOut true
        [⟨[[1], [98]], [98], false, 0, .file [] none⟩]
        [⟨[[2], [98]], [98], false, 0, .file [] none⟩]).countP
      (fun c => c.nameOf == [98])
      = expectedCount true
        [⟨[[1], [98]], [98], false, 0, .file [] none⟩]
        [⟨[[2], [98]], [98], false, 0, .file [] none⟩] [98] :=
  (c9_no_entry_dropped true
    [⟨[[1], [98]], [98], false, 0, .file [] none⟩]
    [⟨[[2], [98]], [98], false, 0, .file [] none⟩]
    (List.pairwise_singleton _ _) (List.pairwise_singleton _ _)
    (by intro e he; rw [List.mem_singleton] at he; rw [he]; rfl)
    (by intro e he; rw [List.mem_singleton] at he; rw [he]; rfl)
    [98]).1

/-- **C7**: error conversion and containment.  When both top-level listings
succeed the run as a whole succeeds; every pending subdirectory pair
contributes its own contiguous segment of output, so siblings of a failing
pair are unaffected; a subdirectory pair whose recursive comparison fails
contributes exactly one `ComparisonError` classification carrying both paths
and the underlying message; and a pending file pair whose content comparison
fails likewise yields exactly the single `ComparisonError` with both paths
and the message, through the same classification stream. -/
theorem c7_error_conversion (ex : List Name) (am : Bool) (p1 p2 : FPath)
    (n1 n2 : FsNode) (l1 l2 : List EntryInfo)
    (h1 : listNode ex p1 n1 = .ok l1) (h2 : listNode ex p2 n2 = .ok l2) :
    (∃ cs, compareDirectories ex am p1 p2 n1 n2 = .ok cs) ∧
    (∀ dp ∈ (mergeWalk (fileResult am) am l1 l2).dirs,
      ∃ pre post, compareDirectories ex am p1 p2 n1 n2
          = .ok (pre ++ childOut ex am dp ++ post)) ∧
    (∀ dp : EntryInfo × EntryInfo, ∀ m : String,
      compareDirectories ex am dp.1.path dp.2.path dp.1.node dp.2.node = .error m →
      childOut ex am dp = [.cmpError dp.1.path dp.2.path m]) ∧
    (∀ a b : EntryInfo, ∀ m : String, filesAreIdentical a.node b.node = .error m →
      fileResult am a b = [.cmpError a.path b.path m]) := by
  refine ⟨⟨_, compareDirectories_ok h1 h2⟩, ?_, ?_, ?_⟩
  · intro dp hdp
    obtain ⟨s, t, hst⟩ := List.append_of_mem hdp
    refine ⟨(mergeWalk (fileResult am) am l1 l2).outs
        ++ (mergeWalk (fileResult am) am l1 l2).files.flatMap
            (fun fp => fileResult am fp.1 fp.2)
        ++ s.flatMap (childOut ex am),
      t.flatMap (childOut ex am), ?_⟩
    rw [compareDirectories_ok h1 h2, hst, List.flatMap_append, List.flatMap_cons]
    simp only [List.append_assoc]
  · intro dp m h
    unfold childOut
    rw [h]
  · intro a b m h
    unfold fileResult
    rw [h]

theorem c7_error_conversion_witness :
    listNode [] [[1]] (.dir (.cons [100] (.dir .nil (some "boom")) .nil) none)
      = .ok [⟨[[1], [100]], [100], true, 0, .dir .nil (some "boom")⟩] ∧
    (∃ cs, compareDirectories [] false [[1]] [[2]]
        (.dir (.cons [100] (.dir .nil (some "boom")) .nil) none)
        (.dir (.cons [100] (.dir .nil (some "bam")) .nil) none) = .ok cs) :=
  ⟨rfl,
    (c7_error_conversion [] false [[1]] [[2]]
      (.dir (.cons [100] (.dir .nil (some "boom")) .nil) none)
      (.dir (.cons [100] (.dir .nil (some "bam")) .nil) none)
      [⟨[[1], [100]], [100], true, 0, .dir .nil (some "boom")⟩]
      [⟨[[2], [100]], [100], true, 0, .dir .nil (some "bam")⟩]
      rfl rfl).1⟩

theorem fileResult_paths {am : Bool} {a b : EntryInfo} {c : Classification}
    (hc : c ∈ fileResult am a b) : ∀ p ∈ c.pathsOf, p = a.path ∨ p = b.path := by
  unfold fileResult at hc
  rcases hfi : filesAreIdentical a.node b.node with m | v
  · rw [hfi] at hc
    rw [List.mem_singleton] at hc
    subst hc
    intro p hp
    simp only [Classification.pathsOf, List.mem_cons, List.mem_singleton] at hp
    rcases hp with rfl | rfl | h
    · exact .inl rfl
    · exact .inr rfl
    · simp at h
  · rw [hfi] at hc
    cases v with
    | false =>
      rw [List.mem_singleton] at hc
      subst hc
      intro p hp
      simp only [Classification.pathsOf, List.mem_singleton] at hp
      exact .inr hp
    | true =>
      dsimp only at hc
      rcases ham : am with _ | _ <;> rw [ham] at hc
      · simp at hc
      · rw [if_pos rfl, List.mem_singleton] at hc
        subst hc
        intro p hp
        simp only [Classification.pathsOf, List.mem_singleton] at hp
        exact .inr hp

theorem mergeWalkF_files_mem :
    ∀ (f : Nat) (cmp : EntryInfo → EntryInfo → List Classification) (am : Bool)
      (l1 l2 : List EntryInfo) (fp : EntryInfo × EntryInfo),
    fp ∈ (mergeWalkF cmp am f l1 l2).files → fp.1 ∈ l1 ∧ fp.2 ∈ l2 := by
  intro f
  induction f with
  | zero => intro cmp am l1 l2 fp h; rw [mergeWalkF_zero] at h; simp at h
  | succ fh ih =>
    intro cmp am l1 l2 fp h
    cases l1 with
    | nil =>
      cases l2 with
      | nil => rw [mergeWalkF_succ_nil_nil] at h; simp at h
      | cons b bs =>
        rw [mergeWalkF_succ_nil_cons] at h
        have := ih cmp am [] bs fp h
        exact ⟨this.1, List.mem_cons_of_mem b this.2⟩
    | cons a as =>
      cases l2 with
      | nil =>
        rw [mergeWalkF_succ_cons_nil] at h
        have := ih cmp am as [] fp h
        exact ⟨List.mem_cons_of_mem a this.1, this.2⟩
      | cons b bs =>
        rw [mergeWalkF_succ_cons_cons] at h
        rcases byteCmp_cases a.file_name b.file_name with hc | hc | hc <;>
          rw [hc] at h <;> dsimp only at h
        · have := ih cmp am as (b :: bs) fp h
          exact ⟨List.mem_cons_of_mem a this.1, this.2⟩
        · split_ifs at h
          all_goals
            first
            | (simp only [List.mem_cons] at h
               rcases h with rfl | h
               · exact ⟨List.mem_cons_self a as, List.mem_cons_self b bs⟩
               · have := ih cmp am as bs fp h
                 exact ⟨List.mem_cons_of_mem a this.1, List.mem_cons_of_mem b this.2⟩)
            | exact ⟨List.mem_cons_of_mem a (ih cmp am as bs fp h).1,
                List.mem_cons_of_mem b (ih cmp am as bs fp h).2⟩
        · have := ih cmp am (a :: as) bs fp h
          exact ⟨this.1, List.mem_cons_of_mem b this.2⟩

theorem mergeWalk_files_mem {cmp : EntryInfo → EntryInfo → List Classification} {am : Bool}
    {l1 l2 : List EntryInfo} {fp : EntryInfo × EntryInfo}
    (h : fp ∈ (mergeWalk cmp am l1 l2).files) : fp.1 ∈ l1 ∧ fp.2 ∈ l2 :=
  mergeWalkF_files_mem _ cmp am l1 l2 fp h

theorem mergeWalkF_outs_paths :
    ∀ (f : Nat) (am : Bool) (l1 l2 : List EntryInfo),
    ∀ c ∈ (mergeWalkF (fileResult am) am f l1 l2).outs, ∀ p ∈ c.pathsOf,
      (∃ e ∈ l1, p = e.path) ∨ ∃ e ∈ l2, p = e.path := by
  intro f
  induction f with
  | zero => intro am l1 l2 c hc; rw [mergeWalkF_zero] at hc; simp at hc
  | succ fh ih =>
    intro am l1 l2 c hc
    cases l1 with
    | nil =>
      cases l2 with
      | nil => rw [mergeWalkF_succ_nil_nil] at hc; simp at hc
      | cons b bs =>
        rw [mergeWalkF_succ_nil_cons] at hc
        rcases List.mem_cons.mp hc with rfl | hc
        · intro p hp
          simp only [Classification.pathsOf, List.mem_singleton] at hp
          exact .inr ⟨b, List.mem_cons_self b bs, hp⟩
        · intro p hp
          rcases ih am [] bs c hc p hp with ⟨e, he, hpe⟩ | ⟨e, he, hpe⟩
          · simp at he
          · exact .inr ⟨e, List.mem_cons_of_mem b he, hpe⟩
    | cons a as =>
      cases l2 with
      | nil =>
        rw [mergeWalkF_succ_cons_nil] at hc
        rcases List.mem_cons.mp hc with rfl | hc
        · intro p hp
          simp only [Classification.pathsOf, List.mem_singleton] at hp
          exact .inl ⟨a, List.mem_cons_self a as, hp⟩
        · intro p hp
          rcases ih am as [] c hc p hp with ⟨e, he, hpe⟩ | ⟨e, he, hpe⟩
          · exact .inl ⟨e, List.mem_cons_of_mem a he, hpe⟩
          · simp at he
      | cons b bs =>
        rw [mergeWalkF_succ_cons_cons] at hc
        have hmem : ∀ d ∈ (mergeWalkF (fileResult am) am fh as bs).outs, ∀ p ∈ d.pathsOf,
            (∃ e ∈ a :: as, p = e.path) ∨ ∃ e ∈ b :: bs, p = e.path := by
          intro d hd p hp
          rcases ih am as bs d hd p hp with ⟨e, he, hpe⟩ | ⟨e, he, hpe⟩
          · exact .inl ⟨e, List.mem_cons_of_mem a he, hpe⟩
          · exact .inr ⟨e, List.mem_cons_of_mem b he, hpe⟩
        have hheada : ∀ p ∈ (Classification.deleted a.path).pathsOf,
            (∃ e ∈ a :: as, p = e.path) ∨ ∃ e ∈ b :: bs, p = e.path := by
          intro p hp
          simp only [Classification.pathsOf, List.mem_singleton] at hp
          exact .inl ⟨a, List.mem_cons_self a as, hp⟩
        have hheadb : ∀ p ∈ (Classification.added b.path).pathsOf,
            (∃ e ∈ a :: as, p = e.path) ∨ ∃ e ∈ b :: bs, p = e.path := by
          intro p hp
          simp only [Classification.pathsOf, List.mem_singleton] at hp
          exact .inr ⟨b, List.mem_cons_self b bs, hp⟩
        rcases byteCmp_cases a.file_name b.file_name with hcc | hcc | hcc <;>
          rw [hcc] at hc <;> dsimp only at hc
        · rcases List.mem_cons.mp hc with rfl | hc
          · exact hheada
          · intro p hp
            rcases ih am as (b :: bs) c hc p hp with ⟨e, he, hpe⟩ | ⟨e, he, hpe⟩
            · exact .inl ⟨e, List.mem_cons_of_mem a he, hpe⟩
            · exact .inr ⟨e, he, hpe⟩
        · split_ifs at hc with h1 h2 h3 h4 h5
          · rcases List.mem_cons.mp hc with rfl | hc
            · exact hheada
            · rcases List.mem_cons.mp hc with rfl | hc
              · exact hheadb
              · exact hmem c hc
          · exact hmem c hc
          · rcases List.mem_cons.mp hc with rfl | hc
            · intro p hp
              simp only [Classification.pathsOf, List.mem_singleton] at hp
              exact .inr ⟨b, List.mem_cons_self b bs, hp⟩
            · exact hmem c hc
          · rcases List.mem_append.mp hc with hc | hc
            · intro p hp
              rcases fileResult_paths hc p hp with rfl | rfl
              · exact .inl ⟨a, List.mem_cons_self a as, rfl⟩
              · exact .inr ⟨b, List.mem_cons_self b bs, rfl⟩
            · exact hmem c hc
          · exact hmem c hc
          · exact hmem c hc
        · rcases List.mem_cons.mp hc with rfl | hc
          · exact hheadb
          · intro p hp
            rcases ih am (a :: as) bs c hc p hp with ⟨e, he, hpe⟩ | ⟨e, he, hpe⟩
            · exact .inl ⟨e, he, hpe⟩
            · exact .inr ⟨e, List.mem_cons_of_mem b he, hpe⟩

theorem mergeWalk_outs_paths {am : Bool} {l1 l2 : List EntryInfo} :
    ∀ c ∈ (mergeWalk (fileResult am) am l1 l2).outs, ∀ p ∈ c.pathsOf,
      (∃ e ∈ l1, p = e.path) ∨ ∃ e ∈ l2, p = e.path :=
  mergeWalkF_outs_paths _ am l1 l2

theorem listNode_avoid {ex : List Name} {p : FPath} {n : FsNode} {l : List EntryInfo}
    (h : listNode ex p n = .ok l) {x : Name} (hx : x ∈ ex) (hxp : x ∉ p) :
    ∀ e ∈ l, x ∉ e.path := by
  intro e he hmem
  rcases listNode_mem h he with ⟨es, err, -, -, hpath, -, -, hexc⟩
  rw [hpath] at hmem
  rcases List.mem_append.mp hmem with hm | hm
  · exact hxp hm
  · rw [List.mem_singleton] at hm
    subst hm
    simp at hexc
    exact hexc hx

theorem compareFuel_paths_avoid (x : Name) :
    ∀ (fuel : Nat) (ex : List Name) (am : Bool) (p1 p2 : FPath) (n1 n2 : FsNode)
      (cs : List Classification),
    x ∈ ex → x ∉ p1 → x ∉ p2 →
    compareFuel ex am fuel p1 p2 n1 n2 = .ok cs →
    ∀ c ∈ cs, ∀ p ∈ c.pathsOf, x ∉ p := by
  intro fuel
  induction fuel with
  | zero =>
    intro ex am p1 p2 n1 n2 cs hx hxp1 hxp2 h
    exact absurd h (by simp [compareFuel])
  | succ fh ih =>
    intro ex am p1 p2 n1 n2 cs hx hxp1 hxp2 h
    rw [compareFuel_succ] at h
    rcases hl1 : listNode ex p1 n1 with m | l1
    · rw [hl1] at h; exact absurd h (by simp)
    rw [hl1] at h
    rcases hl2 : listNode ex p2 n2 with m | l2
    · rw [hl2] at h; exact absurd h (by simp)
    rw [hl2] at h
    dsimp only at h
    injection h with h
    subst h
    have hent1 : ∀ e ∈ l1, x ∉ e.path := listNode_avoid hl1 hx hxp1
    have hent2 : ∀ e ∈ l2, x ∉ e.path := listNode_avoid hl2 hx hxp2
    intro c hc
    rcases List.mem_append.mp hc with hc | hc
    · rcases List.mem_append.mp hc with hc | hc
      · intro p hp
        rcases mergeWalk_outs_paths c hc p hp with ⟨e, he, rfl⟩ | ⟨e, he, rfl⟩
        · exact hent1 e he
        · exact hent2 e he
      · rcases List.mem_flatMap.mp hc with ⟨fp, hfp, hcf⟩
        have hm := mergeWalk_files_mem hfp
        intro p hp
        rcases fileResult_paths hcf p hp with rfl | rfl
        · exact hent1 _ hm.1
        · exact hent2 _ hm.2
    · rcases List.mem_flatMap.mp hc with ⟨dp, hdp, hcd⟩
      have hm := mergeWalk_dirs_mem hdp
      revert hcd
      rcases hrec : compareFuel ex am fh dp.1.path dp.2.path dp.1.node dp.2.node with m | cs2
      · intro hcd
        rw [List.mem_singleton] at hcd
        subst hcd
        intro p hp
        simp only [Classification.pathsOf, List.mem_cons, List.mem_singleton] at hp
        rcases hp with rfl | rfl | hfalse
        · exact hent1 _ hm.1
        · exact hent2 _ hm.2
        · simp at hfalse
      · intro hcd
        exact ih ex am dp.1.path dp.2.path dp.1.node dp.2.node cs2 hx
          (hent1 _ hm.1) (hent2 _ hm.2) hrec c hcd

/-- **C6**: exclude correctness.  The exclude set is passed down unchanged at
every recursion level, so for any name in the exclude set, provided neither
root path already contains it as a component, no classification whose
reported paths contain that name as a component is ever produced, at any
depth on either side. -/
theorem c6_excludes (ex : List Name) (am : Bool) (p1 p2 : FPath) (n1 n2 : FsNode)
    (cs : List Classification) (x : Name) (hx : x ∈ ex) (hxp1 : x ∉ p1) (hxp2 : x ∉ p2)
    (h : compareDirectories ex am p1 p2 n1 n2 = .ok cs) :
    ∀ c ∈ cs, ∀ p ∈ c.pathsOf, x ∉ p :=
  compareFuel_paths_avoid x (n1.height + 1) ex am p1 p2 n1 n2 cs hx hxp1 hxp2 h

theorem c6_excludes_witness :
    compareDirectories [[101]] false [[1]] [[2]]
        (.dir (.cons [101] (.file [5] none) (.cons [102] (.file [7] none) .nil)) none)
        (.dir .nil none)
      = .ok [.deleted [[1], [102]]] ∧
    (∀ c ∈ [Classification.deleted [[1], [102]]], ∀ p ∈ c.pathsOf, [101] ∉ p) :=
  ⟨by decide,
    c6_excludes [[101]] false [[1]] [[2]]
      (.dir (.cons [101] (.file [5] none) (.cons [102] (.file [7] none) .nil)) none)
      (.dir .nil none)
      [.deleted [[1], [102]]] [101]
      (by decide) (by decide) (by decide) (by decide)⟩

/-- **C10**: the run is modelled as a pure sequential function of the
filesystem and the argument list, and it consults the filesystem only at the
two positional directory operands: any two executions over environments that
agree on those two operands (in particular, two runs over the very same
environment) produce the identical exit code and the identical classification
sequence, in every mode. -/
theorem c10_deterministic (lookup1 lookup2 : String → Option FsNode) (args : List String)
    (hagree : ∀ d1 d2 am nf ex,
      parseLoop args false false none none [] = .ok (am, nf, some d1, some d2, ex) →
      lookup1 d1 = lookup2 d1 ∧ lookup1 d2 = lookup2 d2) :
    runMain lookup1 args = runMain lookup2 args := by
  unfold runMain
  rcases hp : parseLoop args false false none none [] with m | r
  · rfl
  · obtain ⟨am, nf, d1o, d2o, ex⟩ := r
    rcases d1o with _ | d1
    · rfl
    rcases d2o with _ | d2
    · rfl
    obtain ⟨h1, h2⟩ := hagree d1 d2 am nf ex hp
    dsimp only
    rw [h1, h2]

theorem c10_deterministic_witness :
    runMain
        (fun s => if s = "a" then some (.dir (.cons [120] (.file [5] none) .nil) none)
                  else if s = "b" then some (.dir .nil none) else none)
        ["a", "b"]
      = runMain
        (fun s => if s = "a" then some (.dir (.cons [120] (.file [5] none) .nil) none)
                  else if s = "b" then some (.dir .nil none)
                  else some (.file [9] none))
        ["a", "b"] :=
  c10_deterministic
    (fun s => if s = "a" then some (.dir (.cons [120] (.file [5] none) .nil) none)
              else if s = "b" then some (.dir .nil none) else none)
    (fun s => if s = "a" then some (.dir (.cons [120] (.file [5] none) .nil) none)
              else if s = "b" then some (.dir .nil none)
              else some (.file [9] none))
    ["a", "b"]
    (by
      intro d1 d2 am nf ex hp
      rw [show parseLoop ["a", "b"] false false none none []
          = Except.ok (false, false, some "a", some "b", []) from rfl] at hp
      injection hp with hp
      simp only [Prod.mk.injEq, Option.some.injEq] at hp
      obtain ⟨-, -, hd1, hd2, -⟩ := hp
      subst hd1
      subst hd2
      exact ⟨rfl, rfl⟩)
